import Mathlib

/-!
Verification of the visibility-region geometry core of the stealth-game
level editor.  The definitions below are a shallow embedding of the
TypeScript source (`src/main.ts`): `Point` and `LineSegment` mirror the
geometry primitives, `Box` / `Polygon` / `Circle` the obstacle shapes, and
`Eye` the observer with its ray-casting routine `castRays`.  Arithmetic is
exact (a linear ordered field, instantiated at `ℚ` or `ℝ`); the JavaScript
float operations are modelled by their exact mathematical counterparts,
and `Math.atan2` / `Math.hypot` by their mathematical definitions over ℝ.
The JavaScript array sort is modelled by a stable merge sort and the
`Path2D` command sequence by an explicit list of path commands.
-/

namespace Stealth

open Real

open scoped Classical

/-- The `Point` record of the source: an (x, y) pair. -/
structure Point (α : Type) where
  x : α
  y : α
deriving DecidableEq

/-- The `Rect` record of the source: origin (x, y) plus width and height. -/
structure Rect (α : Type) where
  x : α
  y : α
  w : α
  h : α
deriving DecidableEq

/-- `LineSegment`: an ordered pair of points.  The source field `end` is a
reserved word in Lean, so it is called `endP` here. -/
structure LineSegment (α : Type) where
  start : Point α
  endP : Point α
deriving DecidableEq

variable {α : Type} [LinearOrderedField α]

/-- The denominator of the parametric segment-intersection formula in
`LineSegment.intersection` (the cross product of the two directions). -/
def LineSegment.denominator (a b : LineSegment α) : α :=
  (b.endP.y - b.start.y) * (a.endP.x - a.start.x) -
    (b.endP.x - b.start.x) * (a.endP.y - a.start.y)

/-- The line parameter `ua` computed in `LineSegment.intersection`. -/
def LineSegment.ua (a b : LineSegment α) : α :=
  ((b.endP.x - b.start.x) * (a.start.y - b.start.y) -
    (b.endP.y - b.start.y) * (a.start.x - b.start.x)) / LineSegment.denominator a b

/-- The line parameter `ub` computed in `LineSegment.intersection`. -/
def LineSegment.ub (a b : LineSegment α) : α :=
  ((a.endP.x - a.start.x) * (a.start.y - b.start.y) -
    (a.endP.y - a.start.y) * (a.start.x - b.start.x)) / LineSegment.denominator a b

/-- `LineSegment.intersection` from the source: the parametric
segment-segment intersection with its three early-return guards. -/
def LineSegment.intersection (a b : LineSegment α) : Option (Point α) :=
  if (a.start.x = a.endP.x ∧ a.start.y = a.endP.y) ∨
     (b.start.x = b.endP.x ∧ b.start.y = b.endP.y) then
    none
  else if LineSegment.denominator a b = 0 then
    none
  else if LineSegment.ua a b < 0 ∨ LineSegment.ua a b > 1 ∨
          LineSegment.ub a b < 0 ∨ LineSegment.ub a b > 1 then
    none
  else
    some ⟨a.start.x + LineSegment.ua a b * (a.endP.x - a.start.x),
          a.start.y + LineSegment.ua a b * (a.endP.y - a.start.y)⟩

/-- `LineSegment.pseudoAngle` from the source: the trig-free angular
ordering key. -/
def LineSegment.pseudoAngle (s : LineSegment α) : α :=
  let dx := s.endP.x - s.start.x
  let dy := s.endP.y - s.start.y
  let p := dx / (|dx| + |dy|)
  if dy < 0 then p - 1 else 1 - p

/-- The body of `LineSegment.pseudoAngle` as a function of the direction
components. -/
def pseudoAngleAt (dx dy : α) : α :=
  if dy < 0 then dx / (|dx| + |dy|) - 1 else 1 - dx / (|dx| + |dy|)

/-- `Box`: an axis-aligned rectangle obstacle. -/
structure Box (α : Type) where
  rect : Rect α
deriving DecidableEq

def Box.top (b : Box α) : α := b.rect.y

def Box.left (b : Box α) : α := b.rect.x

def Box.bottom (b : Box α) : α := b.rect.y + b.rect.h

def Box.right (b : Box α) : α := b.rect.x + b.rect.w

/-- The four corner objects created at the top of `Box.cornersForPoint`.
They are distinct JavaScript objects, so the `Set` used there de-duplicates
by identity; identity is modelled by this tag type. -/
inductive BoxCorner
  | tl
  | bl
  | tr
  | br
deriving DecidableEq

/-- The point value of each corner object of `Box.cornersForPoint`. -/
def Box.cornerPoint (b : Box α) : BoxCorner → Point α
  | .tl => ⟨b.left, b.top⟩
  | .bl => ⟨b.left, b.bottom⟩
  | .tr => ⟨b.right, b.top⟩
  | .br => ⟨b.right, b.bottom⟩

/-- `Set.add` on corner objects: insertion-ordered, identity de-duplicated. -/
def setAdd (l : List BoxCorner) (c : BoxCorner) : List BoxCorner :=
  if c ∈ l then l else l ++ [c]

/-- The first `if`/`else if` group of `Box.cornersForPoint`, comparing
`p.x` with the left/right half-plane extensions. -/
def Box.cornerTagsX (b : Box α) (p : Point α) : List BoxCorner :=
  if p.x < b.left then setAdd (setAdd [] .tl) .bl
  else if p.x > b.right then setAdd (setAdd [] .tr) .br
  else []

/-- The corner-object set built by `Box.cornersForPoint`: the second
`if`/`else if` group, comparing `p.y` with the top/bottom half-plane
extensions, applied after the `p.x` group. -/
def Box.cornerTags (b : Box α) (p : Point α) : List BoxCorner :=
  if p.y < b.top then setAdd (setAdd (b.cornerTagsX p) .tl) .tr
  else if p.y > b.bottom then setAdd (setAdd (b.cornerTagsX p) .bl) .br
  else b.cornerTagsX p

/-- `Box.cornersForPoint` from the source: the corner objects collected in
the `Set`, in insertion order, as point values. -/
def Box.cornersForPoint (b : Box α) (p : Point α) : List (Point α) :=
  (b.cornerTags p).map b.cornerPoint

/-- `Math.atan2` of JavaScript, modelled over ℝ: the angle in (-π, π] of
the vector (x, y), with `atan2 0 0 = 0`. -/
noncomputable def atan2 (y x : ℝ) : ℝ :=
  if 0 < x then Real.arctan (y / x)
  else if x < 0 then
    (if 0 ≤ y then Real.arctan (y / x) + π else Real.arctan (y / x) - π)
  else
    (if 0 < y then π / 2 else if y < 0 then -(π / 2) else 0)

/-- The `vecLen` helper of the source (`Math.hypot` of the difference). -/
noncomputable def vecLen (a b : Point ℝ) : ℝ :=
  Real.sqrt ((b.x - a.x) ^ 2 + (b.y - a.y) ^ 2)

/-- The `unitVector` helper of the source: normalized direction from `o`
to `p`, `none` on zero length. -/
noncomputable def unitVector (o p : Point ℝ) : Option (Point ℝ) :=
  let dx := p.x - o.x
  let dy := p.y - o.y
  let len := Real.sqrt (dx ^ 2 + dy ^ 2)
  if len = 0 then none else some ⟨dx / len, dy / len⟩

/-- `Polygon`: an obstacle given by its corner list. -/
structure Polygon where
  corners : List (Point ℝ)

/-- Rotate a list one step to the right (last element to the front). -/
def rotateRight1 {β : Type} (l : List β) : List β :=
  match l.getLast? with
  | none => []
  | some x => x :: l.dropLast

/-- `Polygon.lines` from the source: the edge list as pairs
(corners[i], corners[j]) with j the previous index (wrapping). -/
def Polygon.linesList (poly : Polygon) : List (Point ℝ × Point ℝ) :=
  poly.corners.zip (rotateRight1 poly.corners)

/-- `Polygon.contains` from the source: the pnpoly even-odd crossing test. -/
noncomputable def Polygon.contains (poly : Polygon) (p : Point ℝ) : Bool :=
  poly.linesList.foldl (fun inside ab =>
    if (¬ ((ab.1.y > p.y) ↔ (ab.2.y > p.y))) ∧
       (p.x < (ab.2.x - ab.1.x) * (p.y - ab.1.y) / (ab.2.y - ab.1.y) + ab.1.x) then
      !inside
    else inside) false

/-- `Polygon.cornersForPoint` from the source: corners visible from `p`,
empty when `p` is inside; a corner is kept when the segment from `p` to it
meets no edge other than at the corner itself, value-de-duplicated. -/
noncomputable def Polygon.cornersForPoint (poly : Polygon) (p : Point ℝ) :
    List (Point ℝ) :=
  if poly.contains p then []
  else
    poly.corners.foldl (fun cs corner =>
      if ∃ a ∈ cs, a.x = corner.x ∧ a.y = corner.y then cs
      else if ∀ ab ∈ poly.linesList,
          (ab.1.x = corner.x ∧ ab.1.y = corner.y) ∨
          (ab.2.x = corner.x ∧ ab.2.y = corner.y) ∨
          LineSegment.intersection ⟨ab.1, ab.2⟩ ⟨p, corner⟩ = none then
        cs ++ [corner]
      else cs) []

/-- The `approxEqual` helper inside `Polygon.intersection`, with its
epsilon of 0.0001 applied per coordinate. -/
def approxEqual (a b : Point ℝ) : Prop :=
  (a.x > b.x - 0.0001 ∧ a.x < b.x + 0.0001) ∧
  (a.y > b.y - 0.0001 ∧ a.y < b.y + 0.0001)

/-- The intersection list built by the loop of `Polygon.intersection`:
edge crossings of `line`, excluding crossings approximately equal to an
edge endpoint. -/
noncomputable def Polygon.intersectionCandidates (poly : Polygon)
    (line : LineSegment ℝ) : List (Point ℝ) :=
  poly.linesList.filterMap (fun ab =>
    match LineSegment.intersection line ⟨ab.1, ab.2⟩ with
    | none => none
    | some q => if ¬ approxEqual q ab.1 ∧ ¬ approxEqual q ab.2 then some q else none)

/-- `Polygon.intersection` from the source: the candidate crossing nearest
to `line.start` (the head of the list sorted by distance). -/
noncomputable def Polygon.intersection (poly : Polygon) (line : LineSegment ℝ) :
    Option (Point ℝ) :=
  ((poly.intersectionCandidates line).mergeSort
    (fun q1 q2 => decide (vecLen line.start q1 ≤ vecLen line.start q2))).head?

/-- `Circle`: an obstacle given by centre and radius. -/
structure Circle where
  origin : Point ℝ
  radius : ℝ

/-- `Circle.cornersForPoint` from the source: the two tangent points, or
none when the viewpoint is inside or on the circle. -/
noncomputable def Circle.cornersForPoint (c : Circle) (p : Point ℝ) :
    List (Point ℝ) :=
  let dx := p.x - c.origin.x
  let dy := p.y - c.origin.y
  let length := Real.sqrt (dx ^ 2 + dy ^ 2)
  if length ≤ c.radius then []
  else
    let th := Real.arccos (c.radius / length)
    let d := atan2 dy dx
    [⟨c.origin.x + Real.cos (d + th) * c.radius, c.origin.y + Real.sin (d + th) * c.radius⟩,
     ⟨c.origin.x + Real.cos (d - th) * c.radius, c.origin.y + Real.sin (d - th) * c.radius⟩]

/-- The `Shape` capability of the source as a closed sum of its three
implementations. -/
inductive Shape
  | box (b : Box ℝ)
  | circle (c : Circle)
  | polygon (poly : Polygon)

/-- Dispatch of `cornersForPoint` over the shape variants. -/
noncomputable def Shape.cornersForPoint : Shape → Point ℝ → List (Point ℝ)
  | .box b, p => b.cornersForPoint p
  | .circle c, p => c.cornersForPoint p
  | .polygon poly, p => poly.cornersForPoint p

/-- Dispatch of `intersection` over the shape variants; `Box` and `Circle`
return `none` in the source (explicitly unimplemented). -/
noncomputable def Shape.intersection : Shape → LineSegment ℝ → Option (Point ℝ)
  | .box _, _ => none
  | .circle _, _ => none
  | .polygon poly, seg => poly.intersection seg

/-- One `Path2D` command of the boundary path built by `castRays`. -/
inductive PathCmd
  | moveTo (p : Point ℝ)
  | lineTo (p : Point ℝ)
  | arc (center : Point ℝ) (radius : ℝ) (a1 : ℝ) (a2 : ℝ)

/-- The `Eye` observer: pose fields (`pos`, `angle`, `fov`, `dist`) and the
two cached derived fields (`rays`, `path`), `none` meaning stale. -/
structure Eye where
  pos : Point ℝ
  angle : ℝ
  fov : ℝ
  dist : ℝ
  rays : Option (List (LineSegment ℝ × Option (Point ℝ)))
  path : Option (List PathCmd)

/-- `Eye.ray` from the source: the segment from the position to the point
at `dist` along `angle`. -/
noncomputable def Eye.ray (e : Eye) (angle : ℝ) : LineSegment ℝ :=
  ⟨e.pos, ⟨e.pos.x + e.dist * Real.cos angle, e.pos.y + e.dist * Real.sin angle⟩⟩

/-- The corner distance computed in `castRays` step 1
(`Math.hypot(corner.x - pos.x, corner.y - pos.y)`). -/
noncomputable def Eye.cornerLen (e : Eye) (corner : Point ℝ) : ℝ :=
  Real.sqrt ((corner.x - e.pos.x) ^ 2 + (corner.y - e.pos.y) ^ 2)

/-- The corner angle computed in `castRays` step 1: `atan2` of the unit
vector towards the corner (the non-null assertion on `unitVector` is
justified by the length check). -/
noncomputable def Eye.cornerAngle (e : Eye) (corner : Point ℝ) : ℝ :=
  atan2 ((corner.y - e.pos.y) / e.cornerLen corner)
    ((corner.x - e.pos.x) / e.cornerLen corner)

/-- The one-step-normalized angular difference of `castRays` step 1:
`diff` plus `-2π`, `2π` or `0` according to the comparison with `±π`. -/
noncomputable def Eye.cornerDiff (e : Eye) (corner : Point ℝ) : ℝ :=
  (e.cornerAngle corner - e.angle) +
    (if e.cornerAngle corner - e.angle > π then -(2 * π)
     else if e.cornerAngle corner - e.angle < -π then 2 * π else 0)

/-- The per-corner body of `castRays` step 1: skip corners at distance 0
or beyond `dist`, then keep the (corner, angle) pair when the normalized
difference lies strictly inside the half-fov window. -/
noncomputable def Eye.cornerKeep (e : Eye) (corner : Point ℝ) : Option (Point ℝ × ℝ) :=
  if e.cornerLen corner = 0 ∨ e.cornerLen corner > e.dist then none
  else if e.cornerDiff corner < e.fov / 2 ∧ e.cornerDiff corner > -(e.fov / 2) then
    some (corner, e.cornerAngle corner)
  else none

/-- The `potentialAngles` list of `castRays` step 1: for every shape and
every corner visible from the position, the kept (corner, angle) pairs. -/
noncomputable def Eye.potentialAngles (e : Eye) (shapes : List Shape) :
    List (Point ℝ × ℝ) :=
  shapes.flatMap (fun sh => (sh.cornersForPoint e.pos).filterMap e.cornerKeep)

/-- The sorted `potentialAngles` of `castRays` step 2 (JavaScript
`Array.sort` with the pseudo-angle comparator, modelled by a stable merge
sort). -/
noncomputable def Eye.sortedAngles (e : Eye) (shapes : List Shape) :
    List (Point ℝ × ℝ) :=
  (e.potentialAngles shapes).mergeSort
    (fun a b => decide ((e.ray a.2).pseudoAngle ≤ (e.ray b.2).pseudoAngle))

/-- The `orderedAngles` list of `castRays` step 3: the two fov boundary
rays around the sorted corner list, rotated at the first entry past the
start boundary in pseudo-angle order (`findIndex`, -1 meaning none). -/
noncomputable def Eye.orderedAngles (e : Eye) (shapes : List Shape) :
    List (Point ℝ × ℝ) :=
  let pa := e.sortedAngles shapes
  let startRay := e.ray (e.angle - e.fov / 2)
  let endRay := e.ray (e.angle + e.fov / 2)
  match pa.findIdx? (fun x => decide ((e.ray x.2).pseudoAngle > startRay.pseudoAngle)) with
  | none => (startRay.endP, e.angle - e.fov / 2) ::
      (pa ++ [(endRay.endP, e.angle + e.fov / 2)])
  | some i => (startRay.endP, e.angle - e.fov / 2) ::
      ((pa.drop i ++ pa.take i) ++ [(endRay.endP, e.angle + e.fov / 2)])

/-- The nearest shape intersection along the full-length ray at `angle`
(`castRays` step 4): all shape intersections sorted by distance from the
position, first one if any. -/
noncomputable def Eye.nearestIntersection (e : Eye) (shapes : List Shape)
    (angle : ℝ) : Option (Point ℝ) :=
  ((shapes.filterMap (fun sh => sh.intersection (e.ray angle))).mergeSort
    (fun a b => decide (vecLen e.pos a ≤ vecLen e.pos b))).head?

/-- The `lines` list of `castRays` step 4: each ordered (corner, angle)
entry together with its nearest intersection. -/
noncomputable def Eye.linesOf (e : Eye) (shapes : List Shape) :
    List (Point ℝ × ℝ × Option (Point ℝ)) :=
  (e.orderedAngles shapes).map (fun ca => (ca.1, ca.2, e.nearestIntersection shapes ca.2))

/-- The path commands emitted by one iteration of the walk over
consecutive `lines` entries (`castRays` step 5). -/
noncomputable def Eye.pairCmds (e : Eye) (shapes : List Shape)
    (t1 t2 : Point ℝ × ℝ × Option (Point ℝ)) : List PathCmd :=
  let midIntersects := ∃ sh ∈ shapes,
    (Shape.intersection sh (e.ray ((t1.2.1 + t2.2.1) / 2))).isSome
  (match t1.2.2 with
   | some q =>
     if vecLen e.pos t1.1 < vecLen e.pos q then [.lineTo t1.1] else [.lineTo q]
   | none =>
     if midIntersects then [.lineTo t1.1] else [.lineTo (e.ray t1.2.1).endP]) ++
  (if t1.2.2 = none ∧ ¬ midIntersects then
    [.arc e.pos e.dist t1.2.1 t2.2.1]
   else
    match t2.2.2 with
    | some q =>
      if vecLen e.pos t2.1 < vecLen e.pos q then [.lineTo t2.1] else [.lineTo q]
    | none => [.lineTo t2.1])

/-- The full boundary path built by `castRays`: the initial `moveTo`, the
pairwise walk over consecutive `lines` entries, and the final `lineTo`
back to the start of the end boundary ray. -/
noncomputable def Eye.castRaysPath (e : Eye) (shapes : List Shape) : List PathCmd :=
  let lines := e.linesOf shapes
  let startRay := e.ray (e.angle - e.fov / 2)
  let endRay := e.ray (e.angle + e.fov / 2)
  PathCmd.moveTo ⟨e.pos.x, startRay.start.y⟩ ::
    ((lines.zip lines.tail).flatMap (fun pr => e.pairCmds shapes pr.1 pr.2) ++
      [PathCmd.lineTo ⟨endRay.start.x, endRay.start.y⟩])

/-- The `rays` debug list stored by `castRays`: each ray with its nearest
intersection. -/
noncomputable def Eye.castRaysRays (e : Eye) (shapes : List Shape) :
    List (LineSegment ℝ × Option (Point ℝ)) :=
  (e.linesOf shapes).map (fun t => (e.ray t.2.1, t.2.2))

/-- `Eye.castRays` as a state update: stores the computed path and rays. -/
noncomputable def Eye.castRays (e : Eye) (shapes : List Shape) : Eye :=
  { e with path := some (e.castRaysPath shapes), rays := some (e.castRaysRays shapes) }

/-- The `origin` setter of `Eye` from the source: assigns the position and
nothing else. -/
def Eye.setOrigin (e : Eye) (p : Point ℝ) : Eye := { e with pos := p }

/-- `Eye.lookAt` from the source: returns unchanged when the unit vector
is undefined, otherwise sets the facing angle and clears `rays`. -/
noncomputable def Eye.lookAt (e : Eye) (p : Point ℝ) : Eye :=
  match unitVector e.pos p with
  | none => e
  | some vec => { e with angle := atan2 vec.y vec.x, rays := none }

/-- The caching step of `Eye.draw` from the source: recompute via
`castRays` exactly when `rays` is stale. -/
noncomputable def Eye.drawUpd (e : Eye) (shapes : List Shape) : Eye :=
  if e.rays = none then e.castRays shapes else e

/-- Spec-side predicate for the max-distance invariant: a path command
stays within `dist` of the observer position. -/
def Eye.cmdWithin (e : Eye) : PathCmd → Prop
  | .moveTo q => vecLen e.pos q ≤ e.dist
  | .lineTo q => vecLen e.pos q ≤ e.dist
  | .arc c r _ _ => c = e.pos ∧ r ≤ e.dist

/-- Witness polygon: the triangle (0,0), (4,0), (0,4). -/
def polyW : Polygon := ⟨[⟨0, 0⟩, ⟨4, 0⟩, ⟨0, 4⟩]⟩

/-- Witness ray: the horizontal segment from (-2, 2) to (1, 2). -/
def lineW : LineSegment ℝ := ⟨⟨-2, 2⟩, ⟨1, 2⟩⟩

end Stealth

namespace Stealth

variable {α : Type} [LinearOrderedField α]

theorem notIccZeroOne (x : α) : x ∉ Set.Icc (0 : α) 1 ↔ (x < 0 ∨ x > 1) := by
  rw [Set.mem_Icc, not_and_or, not_le, not_le]

/-- C4: `LineSegment.intersection` returns `none` exactly when one of the
segments has zero length, the cross-product denominator vanishes
(parallel lines), or one of the computed line parameters lies outside
[0, 1]; in every other case (parameters exactly 0 or 1 included) it
returns the point on segment `a` at parameter `ua`. -/
theorem LineSegment.intersection_none_iff (a b : LineSegment α) :
    (LineSegment.intersection a b = none ↔
      ((a.start.x = a.endP.x ∧ a.start.y = a.endP.y) ∨
       (b.start.x = b.endP.x ∧ b.start.y = b.endP.y) ∨
       LineSegment.denominator a b = 0 ∨
       LineSegment.ua a b ∉ Set.Icc (0 : α) 1 ∨
       LineSegment.ub a b ∉ Set.Icc (0 : α) 1)) ∧
    (¬ ((a.start.x = a.endP.x ∧ a.start.y = a.endP.y) ∨
        (b.start.x = b.endP.x ∧ b.start.y = b.endP.y) ∨
        LineSegment.denominator a b = 0 ∨
        LineSegment.ua a b ∉ Set.Icc (0 : α) 1 ∨
        LineSegment.ub a b ∉ Set.Icc (0 : α) 1) →
      LineSegment.intersection a b =
        some ⟨a.start.x + LineSegment.ua a b * (a.endP.x - a.start.x),
              a.start.y + LineSegment.ua a b * (a.endP.y - a.start.y)⟩) := by
  simp only [notIccZeroOne]
  unfold LineSegment.intersection
  by_cases h1 : (a.start.x = a.endP.x ∧ a.start.y = a.endP.y) ∨
      (b.start.x = b.endP.x ∧ b.start.y = b.endP.y)
  · rw [if_pos h1]
    exact ⟨iff_of_true rfl (h1.imp id Or.inl), fun hn => (hn (h1.imp id Or.inl)).elim⟩
  · rw [if_neg h1]
    by_cases h2 : LineSegment.denominator a b = 0
    · rw [if_pos h2]
      exact ⟨iff_of_true rfl (Or.inr (Or.inr (Or.inl h2))),
        fun hn => (hn (Or.inr (Or.inr (Or.inl h2)))).elim⟩
    · rw [if_neg h2]
      by_cases h3 : LineSegment.ua a b < 0 ∨ LineSegment.ua a b > 1 ∨
          LineSegment.ub a b < 0 ∨ LineSegment.ub a b > 1
      · rw [if_pos h3]
        have hr : (a.start.x = a.endP.x ∧ a.start.y = a.endP.y) ∨
            (b.start.x = b.endP.x ∧ b.start.y = b.endP.y) ∨
            LineSegment.denominator a b = 0 ∨
            (LineSegment.ua a b < 0 ∨ LineSegment.ua a b > 1) ∨
            (LineSegment.ub a b < 0 ∨ LineSegment.ub a b > 1) := by
          rcases h3 with h | h | h | h
          · exact Or.inr (Or.inr (Or.inr (Or.inl (Or.inl h))))
          · exact Or.inr (Or.inr (Or.inr (Or.inl (Or.inr h))))
          · exact Or.inr (Or.inr (Or.inr (Or.inr (Or.inl h))))
          · exact Or.inr (Or.inr (Or.inr (Or.inr (Or.inr h))))
        exact ⟨iff_of_true rfl hr, fun hn => (hn hr).elim⟩
      · rw [if_neg h3]
        have hnr : ¬ ((a.start.x = a.endP.x ∧ a.start.y = a.endP.y) ∨
            (b.start.x = b.endP.x ∧ b.start.y = b.endP.y) ∨
            LineSegment.denominator a b = 0 ∨
            (LineSegment.ua a b < 0 ∨ LineSegment.ua a b > 1) ∨
            (LineSegment.ub a b < 0 ∨ LineSegment.ub a b > 1)) := by
          rintro (h | h | h | h | h)
          · exact h1 (Or.inl h)
          · exact h1 (Or.inr h)
          · exact h2 h
          · rcases h with h | h
            · exact h3 (Or.inl h)
            · exact h3 (Or.inr (Or.inl h))
          · rcases h with h | h
            · exact h3 (Or.inr (Or.inr (Or.inl h)))
            · exact h3 (Or.inr (Or.inr (Or.inr h)))
        exact ⟨iff_of_false (Option.some_ne_none _) hnr, fun _ => rfl⟩

/-- C4 witness: two concrete segments meeting exactly at the endpoint
(1, 1), where `ua = 1`; the boundary parameter still yields a point. -/
theorem LineSegment.intersection_none_iff_witness :
    LineSegment.intersection (⟨⟨0, 0⟩, ⟨1, 1⟩⟩ : LineSegment ℚ) ⟨⟨1, 1⟩, ⟨2, 0⟩⟩ =
      some ⟨(⟨⟨0, 0⟩, ⟨1, 1⟩⟩ : LineSegment ℚ).start.x +
              LineSegment.ua ⟨⟨0, 0⟩, ⟨1, 1⟩⟩ ⟨⟨1, 1⟩, ⟨2, 0⟩⟩ *
                ((⟨⟨0, 0⟩, ⟨1, 1⟩⟩ : LineSegment ℚ).endP.x -
                  (⟨⟨0, 0⟩, ⟨1, 1⟩⟩ : LineSegment ℚ).start.x),
            (⟨⟨0, 0⟩, ⟨1, 1⟩⟩ : LineSegment ℚ).start.y +
              LineSegment.ua ⟨⟨0, 0⟩, ⟨1, 1⟩⟩ ⟨⟨1, 1⟩, ⟨2, 0⟩⟩ *
                ((⟨⟨0, 0⟩, ⟨1, 1⟩⟩ : LineSegment ℚ).endP.y -
                  (⟨⟨0, 0⟩, ⟨1, 1⟩⟩ : LineSegment ℚ).start.y)⟩ :=
  (LineSegment.intersection_none_iff ⟨⟨0, 0⟩, ⟨1, 1⟩⟩ ⟨⟨1, 1⟩, ⟨2, 0⟩⟩).2 (by
    norm_num [LineSegment.ua, LineSegment.ub, LineSegment.denominator, Set.mem_Icc])

theorem LineSegment.point_symm_x (a b : LineSegment α)
    (hd : LineSegment.denominator a b ≠ 0) :
    a.start.x + LineSegment.ua a b * (a.endP.x - a.start.x) =
      b.start.x + LineSegment.ub a b * (b.endP.x - b.start.x) := by
  unfold LineSegment.ua LineSegment.ub
  unfold LineSegment.denominator at hd ⊢
  field_simp
  ring

theorem LineSegment.point_symm_y (a b : LineSegment α)
    (hd : LineSegment.denominator a b ≠ 0) :
    a.start.y + LineSegment.ua a b * (a.endP.y - a.start.y) =
      b.start.y + LineSegment.ub a b * (b.endP.y - b.start.y) := by
  unfold LineSegment.ua LineSegment.ub
  unfold LineSegment.denominator at hd ⊢
  field_simp
  ring

theorem LineSegment.denominator_swap (a b : LineSegment α) :
    LineSegment.denominator b a = -LineSegment.denominator a b := by
  unfold LineSegment.denominator
  ring

theorem LineSegment.ua_swap (a b : LineSegment α) :
    LineSegment.ua b a = LineSegment.ub a b := by
  have h : LineSegment.ua b a =
      (-((a.endP.x - a.start.x) * (a.start.y - b.start.y) -
          (a.endP.y - a.start.y) * (a.start.x - b.start.x))) /
        (-LineSegment.denominator a b) := by
    unfold LineSegment.ua LineSegment.denominator
    congr 1 <;> ring
  rw [h, neg_div_neg_eq]
  rfl

theorem LineSegment.ub_swap (a b : LineSegment α) :
    LineSegment.ub b a = LineSegment.ua a b := by
  have h : LineSegment.ub b a =
      (-((b.endP.x - b.start.x) * (a.start.y - b.start.y) -
          (b.endP.y - b.start.y) * (a.start.x - b.start.x))) /
        (-LineSegment.denominator a b) := by
    unfold LineSegment.ub LineSegment.denominator
    congr 1 <;> ring
  rw [h, neg_div_neg_eq]
  rfl

/-- C6: the segment intersection is symmetric for non-degenerate,
non-parallel segments: both orders return `none` in the same cases, and
when a point is returned both orders return the same point. -/
theorem LineSegment.intersection_comm (a b : LineSegment α)
    (ha : ¬ (a.start.x = a.endP.x ∧ a.start.y = a.endP.y))
    (hb : ¬ (b.start.x = b.endP.x ∧ b.start.y = b.endP.y))
    (hd : LineSegment.denominator a b ≠ 0) :
    LineSegment.intersection a b = LineSegment.intersection b a := by
  have hd' : LineSegment.denominator b a ≠ 0 := by
    rw [LineSegment.denominator_swap]
    simpa using hd
  unfold LineSegment.intersection
  rw [if_neg (show ¬ ((a.start.x = a.endP.x ∧ a.start.y = a.endP.y) ∨
    (b.start.x = b.endP.x ∧ b.start.y = b.endP.y)) by tauto)]
  rw [if_neg (show ¬ ((b.start.x = b.endP.x ∧ b.start.y = b.endP.y) ∨
    (a.start.x = a.endP.x ∧ a.start.y = a.endP.y)) by tauto)]
  rw [if_neg hd, if_neg hd']
  rw [LineSegment.ua_swap a b, LineSegment.ub_swap a b]
  by_cases hc : LineSegment.ua a b < 0 ∨ LineSegment.ua a b > 1 ∨
      LineSegment.ub a b < 0 ∨ LineSegment.ub a b > 1
  · rw [if_pos hc, if_pos (show LineSegment.ub a b < 0 ∨ LineSegment.ub a b > 1 ∨
      LineSegment.ua a b < 0 ∨ LineSegment.ua a b > 1 by tauto)]
  · rw [if_neg hc, if_neg (show ¬ (LineSegment.ub a b < 0 ∨ LineSegment.ub a b > 1 ∨
      LineSegment.ua a b < 0 ∨ LineSegment.ua a b > 1) by tauto)]
    have hx := LineSegment.point_symm_x a b hd
    have hy := LineSegment.point_symm_y a b hd
    simp [Point.mk.injEq, hx, hy]

/-- C6 witness: two concrete crossing diagonals. -/
theorem LineSegment.intersection_comm_witness :
    LineSegment.intersection (⟨⟨0, 0⟩, ⟨2, 2⟩⟩ : LineSegment ℚ) ⟨⟨0, 2⟩, ⟨2, 0⟩⟩ =
      LineSegment.intersection (⟨⟨0, 2⟩, ⟨2, 0⟩⟩ : LineSegment ℚ) ⟨⟨0, 0⟩, ⟨2, 2⟩⟩ :=
  LineSegment.intersection_comm ⟨⟨0, 0⟩, ⟨2, 2⟩⟩ ⟨⟨0, 2⟩, ⟨2, 0⟩⟩
    (by norm_num) (by norm_num) (by norm_num [LineSegment.denominator])

theorem Box.cornerTagsX_of_left (b : Box α) (p : Point α) (h : p.x < b.left) :
    b.cornerTagsX p = [.tl, .bl] := by
  unfold Box.cornerTagsX
  rw [if_pos h]
  decide

theorem Box.cornerTagsX_of_right (b : Box α) (p : Point α) (h1 : ¬ p.x < b.left)
    (h2 : p.x > b.right) : b.cornerTagsX p = [.tr, .br] := by
  unfold Box.cornerTagsX
  rw [if_neg h1, if_pos h2]
  decide

theorem Box.cornerTagsX_of_mid (b : Box α) (p : Point α) (h1 : ¬ p.x < b.left)
    (h2 : ¬ p.x > b.right) : b.cornerTagsX p = [] := by
  unfold Box.cornerTagsX
  rw [if_neg h1, if_neg h2]

/-- Exhaustive enumeration of the corner-object set over the nine
half-plane regions of the viewpoint. -/
theorem Box.cornerTags_enum (b : Box α) (p : Point α) :
    (¬ p.x < b.left ∧ ¬ p.x > b.right ∧ ¬ p.y < b.top ∧ ¬ p.y > b.bottom ∧
      b.cornerTags p = []) ∨
    (p.x < b.left ∧ ¬ p.y < b.top ∧ ¬ p.y > b.bottom ∧ b.cornerTags p = [.tl, .bl]) ∨
    (¬ p.x < b.left ∧ p.x > b.right ∧ ¬ p.y < b.top ∧ ¬ p.y > b.bottom ∧
      b.cornerTags p = [.tr, .br]) ∨
    (¬ p.x < b.left ∧ ¬ p.x > b.right ∧ p.y < b.top ∧ b.cornerTags p = [.tl, .tr]) ∨
    (¬ p.x < b.left ∧ ¬ p.x > b.right ∧ ¬ p.y < b.top ∧ p.y > b.bottom ∧
      b.cornerTags p = [.bl, .br]) ∨
    (p.x < b.left ∧ p.y < b.top ∧ b.cornerTags p = [.tl, .bl, .tr]) ∨
    (p.x < b.left ∧ ¬ p.y < b.top ∧ p.y > b.bottom ∧ b.cornerTags p = [.tl, .bl, .br]) ∨
    (¬ p.x < b.left ∧ p.x > b.right ∧ p.y < b.top ∧ b.cornerTags p = [.tr, .br, .tl]) ∨
    (¬ p.x < b.left ∧ p.x > b.right ∧ ¬ p.y < b.top ∧ p.y > b.bottom ∧
      b.cornerTags p = [.tr, .br, .bl]) := by
  by_cases hxl : p.x < b.left
  · by_cases hyt : p.y < b.top
    · refine Or.inr (Or.inr (Or.inr (Or.inr (Or.inr (Or.inl ⟨hxl, hyt, ?_⟩)))))
      unfold Box.cornerTags
      rw [if_pos hyt, Box.cornerTagsX_of_left b p hxl]
      decide
    · by_cases hyb : p.y > b.bottom
      · refine Or.inr (Or.inr (Or.inr (Or.inr (Or.inr (Or.inr
          (Or.inl ⟨hxl, hyt, hyb, ?_⟩))))))
        unfold Box.cornerTags
        rw [if_neg hyt, if_pos hyb, Box.cornerTagsX_of_left b p hxl]
        decide
      · refine Or.inr (Or.inl ⟨hxl, hyt, hyb, ?_⟩)
        unfold Box.cornerTags
        rw [if_neg hyt, if_neg hyb, Box.cornerTagsX_of_left b p hxl]
  · by_cases hxr : p.x > b.right
    · by_cases hyt : p.y < b.top
      · refine Or.inr (Or.inr (Or.inr (Or.inr (Or.inr (Or.inr (Or.inr
          (Or.inl ⟨hxl, hxr, hyt, ?_⟩)))))))
        unfold Box.cornerTags
        rw [if_pos hyt, Box.cornerTagsX_of_right b p hxl hxr]
        decide
      · by_cases hyb : p.y > b.bottom
        · refine Or.inr (Or.inr (Or.inr (Or.inr (Or.inr (Or.inr (Or.inr
            (Or.inr ⟨hxl, hxr, hyt, hyb, ?_⟩)))))))
          unfold Box.cornerTags
          rw [if_neg hyt, if_pos hyb, Box.cornerTagsX_of_right b p hxl hxr]
          decide
        · refine Or.inr (Or.inr (Or.inl ⟨hxl, hxr, hyt, hyb, ?_⟩))
          unfold Box.cornerTags
          rw [if_neg hyt, if_neg hyb, Box.cornerTagsX_of_right b p hxl hxr]
    · by_cases hyt : p.y < b.top
      · refine Or.inr (Or.inr (Or.inr (Or.inl ⟨hxl, hxr, hyt, ?_⟩)))
        unfold Box.cornerTags
        rw [if_pos hyt, Box.cornerTagsX_of_mid b p hxl hxr]
        decide
      · by_cases hyb : p.y > b.bottom
        · refine Or.inr (Or.inr (Or.inr (Or.inr (Or.inl ⟨hxl, hxr, hyt, hyb, ?_⟩))))
          unfold Box.cornerTags
          rw [if_neg hyt, if_pos hyb, Box.cornerTagsX_of_mid b p hxl hxr]
          decide
        · exact Or.inl ⟨hxl, hxr, hyt, hyb, by
            unfold Box.cornerTags
            rw [if_neg hyt, if_neg hyb, Box.cornerTagsX_of_mid b p hxl hxr]⟩

theorem Box.mem_cornersForPoint (b : Box α) (p : Point α) :
    ∀ q ∈ b.cornersForPoint p,
      q = b.cornerPoint .tl ∨ q = b.cornerPoint .bl ∨
      q = b.cornerPoint .tr ∨ q = b.cornerPoint .br := by
  intro q hq
  rcases List.mem_map.mp hq with ⟨c, _, rfl⟩
  cases c
  · exact Or.inl rfl
  · exact Or.inr (Or.inl rfl)
  · exact Or.inr (Or.inr (Or.inl rfl))
  · exact Or.inr (Or.inr (Or.inr rfl))

theorem Box.cornerPoint_injective (b : Box α) (hw : 0 < b.rect.w) (hh : 0 < b.rect.h) :
    Function.Injective b.cornerPoint := by
  intro c1 c2 h
  cases c1 <;> cases c2 <;>
    simp_all [Box.cornerPoint, Point.mk.injEq, Box.top, Box.bottom, Box.left, Box.right]

/-- C1 counterexample: for the box at (0, 0) with size 10 × 10 and the
diagonal viewpoint (-5, -5), `Box.cornersForPoint` returns three corners,
so the count is not bounded by 2. -/
theorem Box.cornersForPoint_three_corners :
    ¬ ((Box.cornersForPoint (⟨⟨0, 0, 10, 10⟩⟩ : Box ℚ) ⟨-5, -5⟩).length ≤ 2) := by
  decide

/-- C1 (amended): for a box of positive width and height,
`Box.cornersForPoint` returns 0, 2 or 3 distinct corners of the box,
determined by comparing the viewpoint against the four half-plane
extensions and de-duplicated; exactly 3 are returned precisely on the
diagonal regions (both an x-comparison and a y-comparison fire). -/
theorem Box.cornersForPoint_silhouette (b : Box α) (p : Point α)
    (hw : 0 < b.rect.w) (hh : 0 < b.rect.h) :
    (b.cornersForPoint p).Nodup ∧
    (∀ q ∈ b.cornersForPoint p,
      q = b.cornerPoint .tl ∨ q = b.cornerPoint .bl ∨
      q = b.cornerPoint .tr ∨ q = b.cornerPoint .br) ∧
    ((b.cornersForPoint p).length = 0 ∨ (b.cornersForPoint p).length = 2 ∨
      (b.cornersForPoint p).length = 3) ∧
    ((b.cornersForPoint p).length = 3 ↔
      ((p.x < b.left ∨ p.x > b.right) ∧ (p.y < b.top ∨ p.y > b.bottom))) := by
  have hinj := b.cornerPoint_injective hw hh
  refine ⟨?_, b.mem_cornersForPoint p, ?_, ?_⟩
  · rcases b.cornerTags_enum p with
      ⟨h1, h2, h3, h4, he⟩ | ⟨h1, h2, h3, he⟩ | ⟨h1, h2, h3, h4, he⟩ | ⟨h1, h2, h3, he⟩ |
      ⟨h1, h2, h3, h4, he⟩ | ⟨h1, h2, he⟩ | ⟨h1, h2, h3, he⟩ | ⟨h1, h2, h3, he⟩ |
      ⟨h1, h2, h3, h4, he⟩ <;>
    · rw [Box.cornersForPoint, he]
      exact List.Nodup.map hinj (by decide)
  all_goals
    rcases b.cornerTags_enum p with
      ⟨h1, h2, h3, h4, he⟩ | ⟨h1, h2, h3, he⟩ | ⟨h1, h2, h3, h4, he⟩ | ⟨h1, h2, h3, he⟩ |
      ⟨h1, h2, h3, h4, he⟩ | ⟨h1, h2, he⟩ | ⟨h1, h2, h3, he⟩ | ⟨h1, h2, h3, he⟩ |
      ⟨h1, h2, h3, h4, he⟩ <;>
    simp_all [Box.cornersForPoint]

/-- C1 witness: the amended statement evaluated at the counterexample box
and viewpoint, where three distinct corners are returned. -/
theorem Box.cornersForPoint_silhouette_witness :
    (0 : ℚ) < 10 ∧
    ((Box.cornersForPoint (⟨⟨0, 0, 10, 10⟩⟩ : Box ℚ) ⟨-5, -5⟩).Nodup ∧
    (∀ q ∈ Box.cornersForPoint (⟨⟨0, 0, 10, 10⟩⟩ : Box ℚ) ⟨-5, -5⟩,
      q = Box.cornerPoint ⟨⟨0, 0, 10, 10⟩⟩ .tl ∨ q = Box.cornerPoint ⟨⟨0, 0, 10, 10⟩⟩ .bl ∨
      q = Box.cornerPoint ⟨⟨0, 0, 10, 10⟩⟩ .tr ∨ q = Box.cornerPoint ⟨⟨0, 0, 10, 10⟩⟩ .br) ∧
    ((Box.cornersForPoint (⟨⟨0, 0, 10, 10⟩⟩ : Box ℚ) ⟨-5, -5⟩).length = 0 ∨
      (Box.cornersForPoint (⟨⟨0, 0, 10, 10⟩⟩ : Box ℚ) ⟨-5, -5⟩).length = 2 ∨
      (Box.cornersForPoint (⟨⟨0, 0, 10, 10⟩⟩ : Box ℚ) ⟨-5, -5⟩).length = 3) ∧
    ((Box.cornersForPoint (⟨⟨0, 0, 10, 10⟩⟩ : Box ℚ) ⟨-5, -5⟩).length = 3 ↔
      (((-5 : ℚ) < Box.left ⟨⟨0, 0, 10, 10⟩⟩ ∨ (-5 : ℚ) > Box.right ⟨⟨0, 0, 10, 10⟩⟩) ∧
       ((-5 : ℚ) < Box.top ⟨⟨0, 0, 10, 10⟩⟩ ∨ (-5 : ℚ) > Box.bottom ⟨⟨0, 0, 10, 10⟩⟩)))) :=
  ⟨by norm_num,
    Box.cornersForPoint_silhouette ⟨⟨0, 0, 10, 10⟩⟩ ⟨-5, -5⟩ (by norm_num) (by norm_num)⟩

/-- C10: `Box.cornersForPoint` returns the empty list exactly when the
viewpoint lies in the closed rectangle spanned by the box; every viewpoint
strictly outside yields at least one corner, and every returned point is
one of the box's four corners. -/
theorem Box.cornersForPoint_empty_iff (b : Box α) (p : Point α) :
    (b.cornersForPoint p = [] ↔
      (b.left ≤ p.x ∧ p.x ≤ b.right ∧ b.top ≤ p.y ∧ p.y ≤ b.bottom)) ∧
    (¬ (b.left ≤ p.x ∧ p.x ≤ b.right ∧ b.top ≤ p.y ∧ p.y ≤ b.bottom) →
      b.cornersForPoint p ≠ []) ∧
    (∀ q ∈ b.cornersForPoint p,
      q = b.cornerPoint .tl ∨ q = b.cornerPoint .bl ∨
      q = b.cornerPoint .tr ∨ q = b.cornerPoint .br) := by
  have hiff : b.cornersForPoint p = [] ↔
      (b.left ≤ p.x ∧ p.x ≤ b.right ∧ b.top ≤ p.y ∧ p.y ≤ b.bottom) := by
    rcases b.cornerTags_enum p with
      ⟨h1, h2, h3, h4, he⟩ | ⟨h1, h2, h3, he⟩ | ⟨h1, h2, h3, h4, he⟩ | ⟨h1, h2, h3, he⟩ |
      ⟨h1, h2, h3, h4, he⟩ | ⟨h1, h2, he⟩ | ⟨h1, h2, h3, he⟩ | ⟨h1, h2, h3, he⟩ |
      ⟨h1, h2, h3, h4, he⟩ <;>
      rw [Box.cornersForPoint, he] <;> simp_all
  exact ⟨hiff, fun hn he => hn (hiff.mp he), b.mem_cornersForPoint p⟩

/-- C10 witness: a viewpoint inside the closed rectangle gets no corners,
and one strictly outside gets a non-empty corner list. -/
theorem Box.cornersForPoint_empty_iff_witness :
    Box.cornersForPoint (⟨⟨0, 0, 4, 4⟩⟩ : Box ℚ) ⟨2, 2⟩ = [] ∧
    Box.cornersForPoint (⟨⟨0, 0, 4, 4⟩⟩ : Box ℚ) ⟨-1, 2⟩ ≠ [] :=
  ⟨(Box.cornersForPoint_empty_iff (⟨⟨0, 0, 4, 4⟩⟩ : Box ℚ) ⟨2, 2⟩).1.mpr
      (by norm_num [Box.left, Box.right, Box.top, Box.bottom]),
    (Box.cornersForPoint_empty_iff (⟨⟨0, 0, 4, 4⟩⟩ : Box ℚ) ⟨-1, 2⟩).2.1
      (by norm_num [Box.left, Box.right, Box.top, Box.bottom])⟩

end Stealth

namespace Stealth

open Real

variable {α : Type} [LinearOrderedField α]

theorem atan2_of_pos {y x : ℝ} (hx : 0 < x) : atan2 y x = Real.arctan (y / x) := by
  rw [atan2, if_pos hx]

theorem atan2_of_neg_nonneg {y x : ℝ} (hx : x < 0) (hy : 0 ≤ y) :
    atan2 y x = Real.arctan (y / x) + π := by
  rw [atan2, if_neg (by linarith), if_pos hx, if_pos hy]

theorem atan2_of_neg_neg {y x : ℝ} (hx : x < 0) (hy : y < 0) :
    atan2 y x = Real.arctan (y / x) - π := by
  rw [atan2, if_neg (by linarith), if_pos hx, if_neg (by linarith)]

theorem atan2_zero_of_pos_y {y : ℝ} (hy : 0 < y) : atan2 y 0 = π / 2 := by
  rw [atan2, if_neg (lt_irrefl 0), if_neg (lt_irrefl 0), if_pos hy]

theorem atan2_zero_of_neg_y {y : ℝ} (hy : y < 0) : atan2 y 0 = -(π / 2) := by
  rw [atan2, if_neg (lt_irrefl 0), if_neg (lt_irrefl 0), if_neg (by linarith), if_pos hy]

theorem atan2_axis_pos {x : ℝ} (hx : 0 < x) : atan2 0 x = 0 := by
  rw [atan2_of_pos hx, zero_div, Real.arctan_zero]

theorem atan2_axis_neg {x : ℝ} (hx : x < 0) : atan2 0 x = π := by
  rw [atan2_of_neg_nonneg hx le_rfl, zero_div, Real.arctan_zero, zero_add]

theorem atan2_le_pi (y x : ℝ) : atan2 y x ≤ π := by
  rcases lt_trichotomy x 0 with hx | hx | hx
  · rcases le_or_lt 0 y with hy | hy
    · rw [atan2_of_neg_nonneg hx hy]
      have h1 : Real.arctan (y / x) ≤ 0 := by
        rw [← Real.arctan_zero]
        exact Real.arctan_strictMono.le_iff_le.mpr (div_nonpos_of_nonneg_of_nonpos hy hx.le)
      linarith
    · rw [atan2_of_neg_neg hx hy]
      have h1 := Real.arctan_lt_pi_div_two (y / x)
      have h2 := Real.pi_pos
      linarith
  · subst hx
    rcases lt_trichotomy y 0 with hy | hy | hy
    · rw [atan2_zero_of_neg_y hy]
      have := Real.pi_pos
      linarith
    · subst hy
      rw [atan2, if_neg (lt_irrefl 0), if_neg (lt_irrefl 0), if_neg (lt_irrefl 0),
        if_neg (lt_irrefl 0)]
      exact Real.pi_pos.le
    · rw [atan2_zero_of_pos_y hy]
      have := Real.pi_pos
      linarith
  · rw [atan2_of_pos hx]
    have h1 := Real.arctan_lt_pi_div_two (y / x)
    have h2 := Real.pi_pos
    linarith

theorem atan2_neg_of_y_neg {y x : ℝ} (hy : y < 0) : atan2 y x < 0 := by
  rcases lt_trichotomy x 0 with hx | hx | hx
  · rw [atan2_of_neg_neg hx hy]
    have h1 := Real.arctan_lt_pi_div_two (y / x)
    have h2 := Real.pi_pos
    linarith
  · subst hx
    rw [atan2_zero_of_neg_y hy]
    have := Real.pi_pos
    linarith
  · rw [atan2_of_pos hx]
    rw [← Real.arctan_zero]
    exact Real.arctan_strictMono (div_neg_of_neg_of_pos hy hx)

theorem atan2_nonneg_of_y_nonneg {y x : ℝ} (hy : 0 ≤ y) : 0 ≤ atan2 y x := by
  rcases lt_trichotomy x 0 with hx | hx | hx
  · rw [atan2_of_neg_nonneg hx hy]
    have h1 := Real.neg_pi_div_two_lt_arctan (y / x)
    have h2 := Real.pi_pos
    linarith
  · subst hx
    rcases lt_or_eq_of_le hy with hy' | hy'
    · rw [atan2_zero_of_pos_y hy']
      have := Real.pi_pos
      linarith
    · rw [← hy']
      rw [atan2, if_neg (lt_irrefl 0), if_neg (lt_irrefl 0), if_neg (lt_irrefl 0),
        if_neg (lt_irrefl 0)]
  · rw [atan2_of_pos hx, ← Real.arctan_zero]
    exact Real.arctan_strictMono.le_iff_le.mpr (div_nonneg hy hx.le)

/-- In the open lower half-plane, the `atan2` order is the cross-product
order. -/
theorem atan2_lt_atan2_lower {y1 x1 y2 x2 : ℝ} (h1 : y1 < 0) (h2 : y2 < 0) :
    (atan2 y1 x1 < atan2 y2 x2 ↔ x2 * y1 < x1 * y2) := by
  have hpi := Real.pi_pos
  rcases lt_trichotomy x1 0 with hx1 | hx1 | hx1 <;>
    rcases lt_trichotomy x2 0 with hx2 | hx2 | hx2
  · -- x1 < 0, x2 < 0
    rw [atan2_of_neg_neg hx1 h1, atan2_of_neg_neg hx2 h2, sub_lt_sub_iff_right,
      Real.arctan_strictMono.lt_iff_lt, ← neg_div_neg_eq y1 x1, ← neg_div_neg_eq y2 x2,
      div_lt_div_iff (by linarith) (by linarith)]
    constructor <;> intro h <;> nlinarith
  · -- x1 < 0, x2 = 0
    subst hx2
    rw [atan2_of_neg_neg hx1 h1, atan2_zero_of_neg_y h2]
    have ha := Real.arctan_lt_pi_div_two (y1 / x1)
    constructor
    · intro
      nlinarith
    · intro
      linarith
  · -- x1 < 0, x2 > 0
    rw [atan2_of_neg_neg hx1 h1, atan2_of_pos hx2]
    have ha := Real.arctan_lt_pi_div_two (y1 / x1)
    have hb := Real.neg_pi_div_two_lt_arctan (y2 / x2)
    constructor
    · intro
      nlinarith
    · intro
      linarith
  · -- x1 = 0, x2 < 0
    subst hx1
    rw [atan2_zero_of_neg_y h1, atan2_of_neg_neg hx2 h2]
    have ha := Real.neg_pi_div_two_lt_arctan (y2 / x2)
    have hb := Real.arctan_lt_pi_div_two (y2 / x2)
    constructor
    · intro
      nlinarith
    · intro
      nlinarith
  · -- x1 = 0, x2 = 0
    subst hx1
    subst hx2
    rw [atan2_zero_of_neg_y h1, atan2_zero_of_neg_y h2]
    simp
  · -- x1 = 0, x2 > 0
    subst hx1
    rw [atan2_zero_of_neg_y h1, atan2_of_pos hx2]
    have ha := Real.neg_pi_div_two_lt_arctan (y2 / x2)
    constructor
    · intro
      nlinarith
    · intro
      linarith
  · -- x1 > 0, x2 < 0
    rw [atan2_of_pos hx1, atan2_of_neg_neg hx2 h2]
    have ha := Real.neg_pi_div_two_lt_arctan (y1 / x1)
    have hb := Real.arctan_lt_pi_div_two (y2 / x2)
    constructor
    · intro
      nlinarith
    · intro
      nlinarith
  · -- x1 > 0, x2 = 0
    subst hx2
    rw [atan2_of_pos hx1, atan2_zero_of_neg_y h2]
    have ha := Real.neg_pi_div_two_lt_arctan (y1 / x1)
    constructor
    · intro
      nlinarith
    · intro
      nlinarith
  · -- x1 > 0, x2 > 0
    rw [atan2_of_pos hx1, atan2_of_pos hx2, Real.arctan_strictMono.lt_iff_lt,
      div_lt_div_iff hx1 hx2]
    constructor <;> intro h <;> nlinarith

/-- In the open upper half-plane, the `atan2` order is the cross-product
order. -/
theorem atan2_lt_atan2_upper {y1 x1 y2 x2 : ℝ} (h1 : 0 < y1) (h2 : 0 < y2) :
    (atan2 y1 x1 < atan2 y2 x2 ↔ x2 * y1 < x1 * y2) := by
  have hpi := Real.pi_pos
  rcases lt_trichotomy x1 0 with hx1 | hx1 | hx1 <;>
    rcases lt_trichotomy x2 0 with hx2 | hx2 | hx2
  · -- x1 < 0, x2 < 0
    rw [atan2_of_neg_nonneg hx1 h1.le, atan2_of_neg_nonneg hx2 h2.le, add_lt_add_iff_right,
      Real.arctan_strictMono.lt_iff_lt, ← neg_div_neg_eq y1 x1, ← neg_div_neg_eq y2 x2,
      div_lt_div_iff (by linarith) (by linarith)]
    constructor <;> intro h <;> nlinarith
  · -- x1 < 0, x2 = 0
    subst hx2
    rw [atan2_of_neg_nonneg hx1 h1.le, atan2_zero_of_pos_y h2]
    have ha := Real.neg_pi_div_two_lt_arctan (y1 / x1)
    constructor
    · intro
      nlinarith
    · intro
      nlinarith
  · -- x1 < 0, x2 > 0
    rw [atan2_of_neg_nonneg hx1 h1.le, atan2_of_pos hx2]
    have ha := Real.neg_pi_div_two_lt_arctan (y1 / x1)
    have hb := Real.arctan_lt_pi_div_two (y2 / x2)
    constructor
    · intro
      nlinarith
    · intro
      nlinarith
  · -- x1 = 0, x2 < 0
    subst hx1
    rw [atan2_zero_of_pos_y h1, atan2_of_neg_nonneg hx2 h2.le]
    have ha := Real.neg_pi_div_two_lt_arctan (y2 / x2)
    constructor
    · intro
      nlinarith
    · intro
      nlinarith
  · -- x1 = 0, x2 = 0
    subst hx1
    subst hx2
    rw [atan2_zero_of_pos_y h1, atan2_zero_of_pos_y h2]
    simp
  · -- x1 = 0, x2 > 0
    subst hx1
    rw [atan2_zero_of_pos_y h1, atan2_of_pos hx2]
    have ha := Real.arctan_lt_pi_div_two (y2 / x2)
    constructor
    · intro
      nlinarith
    · intro
      nlinarith
  · -- x1 > 0, x2 < 0
    rw [atan2_of_pos hx1, atan2_of_neg_nonneg hx2 h2.le]
    have ha := Real.arctan_lt_pi_div_two (y1 / x1)
    have hb := Real.neg_pi_div_two_lt_arctan (y2 / x2)
    constructor
    · intro
      nlinarith
    · intro
      nlinarith
  · -- x1 > 0, x2 = 0
    subst hx2
    rw [atan2_of_pos hx1, atan2_zero_of_pos_y h2]
    have ha := Real.arctan_lt_pi_div_two (y1 / x1)
    constructor
    · intro
      nlinarith
    · intro
      nlinarith
  · -- x1 > 0, x2 > 0
    rw [atan2_of_pos hx1, atan2_of_pos hx2, Real.arctan_strictMono.lt_iff_lt,
      div_lt_div_iff hx1 hx2]
    constructor <;> intro h <;> nlinarith

theorem pseudoAngleAt_abs_le (dx dy : α) : |dx / (|dx| + |dy|)| ≤ 1 := by
  by_cases hs : |dx| + |dy| = 0
  · rw [hs, div_zero, abs_zero]
    exact zero_le_one
  · have hs' : 0 < |dx| + |dy| :=
      lt_of_le_of_ne (by linarith [abs_nonneg dx, abs_nonneg dy]) (Ne.symm hs)
    rw [abs_div, abs_of_pos hs', div_le_one hs']
    linarith [abs_nonneg dy]

theorem pseudoAngleAt_abs_lt (dx : α) {dy : α} (hy : dy ≠ 0) :
    |dx / (|dx| + |dy|)| < 1 := by
  have hdy : 0 < |dy| := abs_pos.mpr hy
  have hs : 0 < |dx| + |dy| := by linarith [abs_nonneg dx]
  rw [abs_div, abs_of_pos hs, div_lt_one hs]
  linarith

theorem pseudoAngleAt_neg_of {dx dy : α} (hy : dy < 0) : pseudoAngleAt dx dy < 0 := by
  rw [pseudoAngleAt, if_pos hy]
  have h := (abs_lt.mp (pseudoAngleAt_abs_lt dx (ne_of_lt hy))).2
  linarith

theorem pseudoAngleAt_nonneg_of {dx dy : α} (hy : ¬ dy < 0) : 0 ≤ pseudoAngleAt dx dy := by
  rw [pseudoAngleAt, if_neg hy]
  have h := (abs_le.mp (pseudoAngleAt_abs_le dx dy)).2
  have h2 := le_abs_self (dx / (|dx| + |dy|))
  linarith

theorem pseudoAngleAt_pos_of {dx dy : α} (hy : 0 < dy) : 0 < pseudoAngleAt dx dy := by
  rw [pseudoAngleAt, if_neg (by linarith)]
  have h := (abs_lt.mp (pseudoAngleAt_abs_lt dx (ne_of_gt hy))).2
  have h2 := le_abs_self (dx / (|dx| + |dy|))
  linarith

theorem pseudoAngleAt_lt_two {dx dy : α} (hy : 0 < dy) : pseudoAngleAt dx dy < 2 := by
  rw [pseudoAngleAt, if_neg (by linarith)]
  have h := (abs_lt.mp (pseudoAngleAt_abs_lt dx (ne_of_gt hy))).1
  linarith

theorem pseudoAngleAt_axis_pos {dx : α} (hx : 0 < dx) : pseudoAngleAt dx 0 = 0 := by
  rw [pseudoAngleAt, if_neg (lt_irrefl 0), abs_zero, add_zero, abs_of_pos hx,
    div_self (ne_of_gt hx), sub_self]

theorem pseudoAngleAt_axis_neg {dx : α} (hx : dx < 0) : pseudoAngleAt dx 0 = 2 := by
  rw [pseudoAngleAt, if_neg (lt_irrefl 0), abs_zero, add_zero, abs_of_neg hx, div_neg,
    div_self (ne_of_lt hx)]
  norm_num

theorem pseudoAngleAt_range (dx dy : α) :
    -2 ≤ pseudoAngleAt dx dy ∧ pseudoAngleAt dx dy ≤ 2 := by
  have h := abs_le.mp (pseudoAngleAt_abs_le dx dy)
  rw [pseudoAngleAt]
  split_ifs <;> constructor <;> linarith [h.1, h.2]

/-- In the open lower half-plane, the pseudo-angle order is the
cross-product order. -/
theorem pseudoAngleAt_lt_lower {x1 y1 x2 y2 : α} (h1 : y1 < 0) (h2 : y2 < 0) :
    (pseudoAngleAt x1 y1 < pseudoAngleAt x2 y2 ↔ x2 * y1 < x1 * y2) := by
  have hs1 : 0 < |x1| + |y1| := by
    have := abs_pos.mpr (ne_of_lt h1)
    linarith [abs_nonneg x1]
  have hs2 : 0 < |x2| + |y2| := by
    have := abs_pos.mpr (ne_of_lt h2)
    linarith [abs_nonneg x2]
  rw [pseudoAngleAt, pseudoAngleAt, if_pos h1, if_pos h2, sub_lt_sub_iff_right,
    div_lt_div_iff hs1 hs2, abs_of_neg h1, abs_of_neg h2]
  rcases le_or_lt 0 x1 with hx1 | hx1 <;> rcases le_or_lt 0 x2 with hx2 | hx2
  · rw [abs_of_nonneg hx1, abs_of_nonneg hx2]
    constructor <;> intro h <;> nlinarith
  · rw [abs_of_nonneg hx1, abs_of_neg hx2]
    constructor <;> intro h <;> nlinarith
  · rw [abs_of_neg hx1, abs_of_nonneg hx2]
    constructor <;> intro h <;> nlinarith
  · rw [abs_of_neg hx1, abs_of_neg hx2]
    constructor <;> intro h <;> nlinarith

/-- In the open upper half-plane, the pseudo-angle order is the
cross-product order. -/
theorem pseudoAngleAt_lt_upper {x1 y1 x2 y2 : α} (h1 : 0 < y1) (h2 : 0 < y2) :
    (pseudoAngleAt x1 y1 < pseudoAngleAt x2 y2 ↔ x2 * y1 < x1 * y2) := by
  have hs1 : 0 < |x1| + |y1| := by
    have := abs_pos.mpr (ne_of_gt h1)
    linarith [abs_nonneg x1]
  have hs2 : 0 < |x2| + |y2| := by
    have := abs_pos.mpr (ne_of_gt h2)
    linarith [abs_nonneg x2]
  rw [pseudoAngleAt, pseudoAngleAt, if_neg (by linarith), if_neg (by linarith),
    sub_lt_sub_iff_left, div_lt_div_iff hs2 hs1, abs_of_pos h1, abs_of_pos h2]
  rcases le_or_lt 0 x1 with hx1 | hx1 <;> rcases le_or_lt 0 x2 with hx2 | hx2
  · rw [abs_of_nonneg hx1, abs_of_nonneg hx2]
    constructor <;> intro h <;> nlinarith
  · rw [abs_of_nonneg hx1, abs_of_neg hx2]
    constructor <;> intro h <;> nlinarith
  · rw [abs_of_neg hx1, abs_of_nonneg hx2]
    constructor <;> intro h <;> nlinarith
  · rw [abs_of_neg hx1, abs_of_neg hx2]
    constructor <;> intro h <;> nlinarith

theorem Point.eq_of_sub {p q : Point ℝ} (hx : p.x - q.x = 0) (hy : p.y - q.y = 0) :
    p = q := by
  cases p
  cases q
  simp only [Point.mk.injEq]
  constructor <;> simp_all <;> linarith

theorem pseudoAngle_eq_at (s : LineSegment α) :
    s.pseudoAngle = pseudoAngleAt (s.endP.x - s.start.x) (s.endP.y - s.start.y) := rfl

/-- C5: the pseudo-angle of a segment with distinct endpoints lies in
[-2, 2], and for two segments sharing a start point, strict order of the
true angles (atan2 of the direction, valued in (-pi, pi]) implies strict
order of the pseudo-angles: the trig-free key preserves angular order,
including across the discontinuity at pi. -/
theorem pseudoAngle_range_and_mono :
    (∀ s : LineSegment ℝ, s.start ≠ s.endP →
      -2 ≤ s.pseudoAngle ∧ s.pseudoAngle ≤ 2) ∧
    (∀ o e1 e2 : Point ℝ, e1 ≠ o → e2 ≠ o →
      atan2 (e1.y - o.y) (e1.x - o.x) < atan2 (e2.y - o.y) (e2.x - o.x) →
      LineSegment.pseudoAngle ⟨o, e1⟩ < LineSegment.pseudoAngle ⟨o, e2⟩) := by
  constructor
  · intro s _
    rw [pseudoAngle_eq_at]
    exact pseudoAngleAt_range _ _
  · intro o e1 e2 h1 h2 hlt
    rw [pseudoAngle_eq_at, pseudoAngle_eq_at]
    show pseudoAngleAt (e1.x - o.x) (e1.y - o.y) < pseudoAngleAt (e2.x - o.x) (e2.y - o.y)
    rcases lt_trichotomy (e1.y - o.y) 0 with hy1 | hy1 | hy1 <;>
      rcases lt_trichotomy (e2.y - o.y) 0 with hy2 | hy2 | hy2
    · -- both lower
      exact (pseudoAngleAt_lt_lower hy1 hy2).mpr ((atan2_lt_atan2_lower hy1 hy2).mp hlt)
    · -- dy1 < 0, dy2 = 0
      exact lt_of_lt_of_le (pseudoAngleAt_neg_of hy1)
        (pseudoAngleAt_nonneg_of (by rw [hy2]; exact lt_irrefl 0))
    · -- dy1 < 0, dy2 > 0
      exact lt_of_lt_of_le (pseudoAngleAt_neg_of hy1)
        (pseudoAngleAt_nonneg_of (by linarith))
    · -- dy1 = 0, dy2 < 0 : contradiction
      rw [hy1] at hlt
      have ha := atan2_nonneg_of_y_nonneg (le_refl (0 : ℝ)) (x := e1.x - o.x)
      have hb := atan2_neg_of_y_neg (x := e2.x - o.x) hy2
      linarith
    · -- dy1 = 0, dy2 = 0
      have hdx1 : e1.x - o.x ≠ 0 := fun h => h1 (Point.eq_of_sub h hy1)
      have hdx2 : e2.x - o.x ≠ 0 := fun h => h2 (Point.eq_of_sub h hy2)
      rw [hy1, hy2] at hlt ⊢
      rcases lt_or_gt_of_ne hdx1 with hx1 | hx1
      · -- dx1 < 0 : atan2 = pi, nothing above
        rw [atan2_axis_neg hx1] at hlt
        have := atan2_le_pi 0 (e2.x - o.x)
        linarith
      · -- dx1 > 0 : pa1 = 0
        rw [atan2_axis_pos hx1] at hlt
        rw [pseudoAngleAt_axis_pos hx1]
        rcases lt_trichotomy (e2.x - o.x) 0 with hx2 | hx2 | hx2
        · rw [pseudoAngleAt_axis_neg hx2]
          norm_num
        · exact absurd hx2 hdx2
        · rw [atan2_axis_pos hx2] at hlt
          exact absurd hlt (lt_irrefl 0)
    · -- dy1 = 0, dy2 > 0
      have hdx1 : e1.x - o.x ≠ 0 := fun h => h1 (Point.eq_of_sub h hy1)
      rw [hy1] at hlt ⊢
      rcases lt_or_gt_of_ne hdx1 with hx1 | hx1
      · rw [atan2_axis_neg hx1] at hlt
        have := atan2_le_pi (e2.y - o.y) (e2.x - o.x)
        linarith
      · rw [pseudoAngleAt_axis_pos hx1]
        exact pseudoAngleAt_pos_of hy2
    · -- dy1 > 0, dy2 < 0 : contradiction
      have ha := atan2_nonneg_of_y_nonneg (x := e1.x - o.x) hy1.le
      have hb := atan2_neg_of_y_neg (x := e2.x - o.x) hy2
      linarith
    · -- dy1 > 0, dy2 = 0
      have hdx2 : e2.x - o.x ≠ 0 := fun h => h2 (Point.eq_of_sub h hy2)
      rw [hy2] at hlt ⊢
      rcases lt_or_gt_of_ne hdx2 with hx2 | hx2
      · rw [pseudoAngleAt_axis_neg hx2]
        exact pseudoAngleAt_lt_two hy1
      · rw [atan2_axis_pos hx2] at hlt
        have := atan2_nonneg_of_y_nonneg (x := e1.x - o.x) hy1.le
        linarith
    · -- both upper
      exact (pseudoAngleAt_lt_upper hy1 hy2).mpr ((atan2_lt_atan2_upper hy1 hy2).mp hlt)

/-- C5 witness: a concrete segment for the range part, and the concrete
directions (1, -1) and (1, 1) for the order part. -/
theorem pseudoAngle_range_and_mono_witness :
    ((⟨⟨0, 0⟩, ⟨1, 1⟩⟩ : LineSegment ℝ).start ≠ (⟨⟨0, 0⟩, ⟨1, 1⟩⟩ : LineSegment ℝ).endP) ∧
    (-2 ≤ (⟨⟨0, 0⟩, ⟨1, 1⟩⟩ : LineSegment ℝ).pseudoAngle ∧
      (⟨⟨0, 0⟩, ⟨1, 1⟩⟩ : LineSegment ℝ).pseudoAngle ≤ 2) ∧
    LineSegment.pseudoAngle (⟨⟨0, 0⟩, ⟨1, -1⟩⟩ : LineSegment ℝ) <
      LineSegment.pseudoAngle ⟨⟨0, 0⟩, ⟨1, 1⟩⟩ := by
  have hne : (⟨⟨0, 0⟩, ⟨1, 1⟩⟩ : LineSegment ℝ).start ≠
      (⟨⟨0, 0⟩, ⟨1, 1⟩⟩ : LineSegment ℝ).endP := by
    simp only [ne_eq, Point.mk.injEq]
    norm_num
  refine ⟨hne, pseudoAngle_range_and_mono.1 _ hne,
    pseudoAngle_range_and_mono.2 ⟨0, 0⟩ ⟨1, -1⟩ ⟨1, 1⟩ ?_ ?_ ?_⟩
  · simp only [ne_eq, Point.mk.injEq]
    norm_num
  · simp only [ne_eq, Point.mk.injEq]
    norm_num
  · show atan2 ((-1 : ℝ) - 0) (1 - 0) < atan2 ((1 : ℝ) - 0) (1 - 0)
    rw [show ((-1 : ℝ) - 0) = -1 by norm_num, show ((1 : ℝ) - 0) = 1 by norm_num,
      atan2_of_pos one_pos, atan2_of_pos one_pos]
    exact Real.arctan_strictMono (by norm_num)


end Stealth

namespace Stealth

open Real

/-- Helper: the path of `castRays` over the empty obstacle list. -/
theorem Eye.castRaysPath_nil (e : Eye) :
    e.castRaysPath [] =
      [PathCmd.moveTo e.pos,
       PathCmd.lineTo ⟨e.pos.x + e.dist * Real.cos (e.angle - e.fov / 2),
                       e.pos.y + e.dist * Real.sin (e.angle - e.fov / 2)⟩,
       PathCmd.arc e.pos e.dist (e.angle - e.fov / 2) (e.angle + e.fov / 2),
       PathCmd.lineTo e.pos] := by
  have hpot : e.potentialAngles [] = [] := rfl
  have hsort : e.sortedAngles [] = [] := by
    rw [Eye.sortedAngles, hpot, List.mergeSort_nil]
  have hord : e.orderedAngles [] =
      [((e.ray (e.angle - e.fov / 2)).endP, e.angle - e.fov / 2),
       ((e.ray (e.angle + e.fov / 2)).endP, e.angle + e.fov / 2)] := by
    rw [Eye.orderedAngles]
    simp [hsort]
  have hnear : ∀ θ, e.nearestIntersection [] θ = none := by
    intro θ
    rw [Eye.nearestIntersection]
    simp
  have hlines : e.linesOf [] =
      [((e.ray (e.angle - e.fov / 2)).endP, e.angle - e.fov / 2, none),
       ((e.ray (e.angle + e.fov / 2)).endP, e.angle + e.fov / 2, none)] := by
    rw [Eye.linesOf, hord]
    simp [hnear]
  rw [Eye.castRaysPath]
  rw [hlines]
  simp only [List.zip, List.tail, List.zipWith, List.flatMap_cons, List.flatMap_nil]
  rw [Eye.pairCmds]
  have hmid : ¬ ∃ sh ∈ ([] : List Shape),
      (Shape.intersection sh (e.ray (((e.angle - e.fov / 2) + (e.angle + e.fov / 2)) / 2))).isSome := by
    simp
  simp only [if_neg hmid, if_pos (And.intro rfl hmid)]
  simp [Eye.ray]

end Stealth

namespace Stealth

open Real

variable {α : Type} [LinearOrderedField α]

theorem vecLen_nonneg (a b : Point ℝ) : 0 ≤ vecLen a b := Real.sqrt_nonneg _

theorem vecLen_self (a : Point ℝ) : vecLen a a = 0 := by
  simp [vecLen]

theorem vecLen_ray_endP (e : Eye) (θ : ℝ) (hd : 0 ≤ e.dist) :
    vecLen e.pos (e.ray θ).endP = e.dist := by
  rw [Eye.ray, vecLen]
  have h : (e.pos.x + e.dist * Real.cos θ - e.pos.x) ^ 2 +
      (e.pos.y + e.dist * Real.sin θ - e.pos.y) ^ 2 = e.dist ^ 2 := by
    have hs := Real.sin_sq_add_cos_sq θ
    ring_nf
    nlinarith [hs]
  rw [h, Real.sqrt_sq hd]

theorem LineSegment.intersection_param (a b : LineSegment α) (q : Point α)
    (h : LineSegment.intersection a b = some q) :
    q = ⟨a.start.x + LineSegment.ua a b * (a.endP.x - a.start.x),
         a.start.y + LineSegment.ua a b * (a.endP.y - a.start.y)⟩ ∧
    0 ≤ LineSegment.ua a b ∧ LineSegment.ua a b ≤ 1 := by
  unfold LineSegment.intersection at h
  split_ifs at h with h1 h2 h3
  push_neg at h3
  exact ⟨by injection h with h'; exact h'.symm, h3.1, h3.2.1⟩

theorem segIntersection_dist_le (a b : LineSegment ℝ) (q : Point ℝ)
    (h : LineSegment.intersection a b = some q) :
    vecLen a.start q ≤ vecLen a.start a.endP := by
  obtain ⟨hq, h0, h1⟩ := LineSegment.intersection_param a b q h
  subst hq
  rw [vecLen, vecLen]
  dsimp only
  have hx : a.start.x + LineSegment.ua a b * (a.endP.x - a.start.x) - a.start.x =
      LineSegment.ua a b * (a.endP.x - a.start.x) := by ring
  have hy : a.start.y + LineSegment.ua a b * (a.endP.y - a.start.y) - a.start.y =
      LineSegment.ua a b * (a.endP.y - a.start.y) := by ring
  rw [hx, hy]
  have hsq : (LineSegment.ua a b * (a.endP.x - a.start.x)) ^ 2 +
      (LineSegment.ua a b * (a.endP.y - a.start.y)) ^ 2 =
      (LineSegment.ua a b) ^ 2 * ((a.endP.x - a.start.x) ^ 2 + (a.endP.y - a.start.y) ^ 2) := by
    ring
  rw [hsq, Real.sqrt_mul (sq_nonneg _), Real.sqrt_sq h0]
  have hb : 0 ≤ Real.sqrt ((a.endP.x - a.start.x) ^ 2 + (a.endP.y - a.start.y) ^ 2) :=
    Real.sqrt_nonneg _
  nlinarith

theorem Polygon.intersection_mem_candidates (poly : Polygon) (line : LineSegment ℝ)
    (q : Point ℝ) (h : Polygon.intersection poly line = some q) :
    q ∈ poly.intersectionCandidates line := by
  unfold Polygon.intersection at h
  rcases hl : (poly.intersectionCandidates line).mergeSort
      (fun q1 q2 => decide (vecLen line.start q1 ≤ vecLen line.start q2)) with _ | ⟨x, xs⟩
  · rw [hl] at h
    simp at h
  · rw [hl] at h
    simp only [List.head?_cons, Option.some.injEq] at h
    subst h
    exact List.mem_mergeSort.mp (by rw [hl]; exact List.mem_cons_self _ _)

theorem Polygon.candidates_crossing (poly : Polygon) (line : LineSegment ℝ)
    (q : Point ℝ) (h : q ∈ poly.intersectionCandidates line) :
    ∃ ab ∈ poly.linesList, LineSegment.intersection line ⟨ab.1, ab.2⟩ = some q ∧
      ¬ approxEqual q ab.1 ∧ ¬ approxEqual q ab.2 := by
  unfold Polygon.intersectionCandidates at h
  rcases List.mem_filterMap.mp h with ⟨ab, hab, hf⟩
  rcases hi : LineSegment.intersection line ⟨ab.1, ab.2⟩ with _ | q'
  · rw [hi] at hf
    simp at hf
  · rw [hi] at hf
    simp only at hf
    split_ifs at hf with hcond
    · simp only [Option.some.injEq] at hf
      subst hf
      exact ⟨ab, hab, hi, hcond⟩

theorem Shape.intersection_dist_le (sh : Shape) (seg : LineSegment ℝ) (q : Point ℝ)
    (h : Shape.intersection sh seg = some q) :
    vecLen seg.start q ≤ vecLen seg.start seg.endP := by
  cases sh with
  | box b => simp [Shape.intersection] at h
  | circle c => simp [Shape.intersection] at h
  | polygon poly =>
    have hq := Polygon.intersection_mem_candidates poly seg q h
    obtain ⟨ab, _, hi, _⟩ := Polygon.candidates_crossing poly seg q hq
    exact segIntersection_dist_le seg ⟨ab.1, ab.2⟩ q hi

end Stealth

namespace Stealth

open Real

theorem Eye.cornerKeep_some (e : Eye) (corner c : Point ℝ) (θ : ℝ) :
    e.cornerKeep corner = some (c, θ) ↔
      (c = corner ∧ θ = e.cornerAngle corner ∧
       e.cornerLen corner ≠ 0 ∧ e.cornerLen corner ≤ e.dist ∧
       e.cornerDiff corner < e.fov / 2 ∧ e.cornerDiff corner > -(e.fov / 2)) := by
  unfold Eye.cornerKeep
  split_ifs with h1 h2
  · simp only [false_iff]
    rintro ⟨_, _, hne, hle, _⟩
    rcases h1 with h1 | h1
    · exact hne h1
    · exact absurd h1 (not_lt.mpr hle)
  · push_neg at h1
    constructor
    · intro h
      injection h with h'
      injection h' with ha hb
      exact ⟨ha.symm, hb.symm, h1.1, h1.2, h2⟩
    · rintro ⟨rfl, rfl, _⟩
      rfl
  · push_neg at h1
    simp only [false_iff]
    rintro ⟨_, _, _, _, hw1, hw2⟩
    exact h2 ⟨hw1, hw2⟩

theorem Eye.potentialAngles_dist (e : Eye) (shapes : List Shape) (c : Point ℝ) (θ : ℝ)
    (h : (c, θ) ∈ e.potentialAngles shapes) : vecLen e.pos c ≤ e.dist := by
  rw [Eye.potentialAngles] at h
  rcases List.mem_flatMap.mp h with ⟨sh, _, hmem⟩
  rcases List.mem_filterMap.mp hmem with ⟨corner, _, hf⟩
  obtain ⟨rfl, _, _, hlen, _⟩ := (e.cornerKeep_some corner c θ).mp hf
  exact hlen

theorem Eye.sortedAngles_dist (e : Eye) (shapes : List Shape) (c : Point ℝ) (θ : ℝ)
    (h : (c, θ) ∈ e.sortedAngles shapes) : vecLen e.pos c ≤ e.dist := by
  rw [Eye.sortedAngles] at h
  exact e.potentialAngles_dist shapes c θ (List.mem_mergeSort.mp h)

theorem Eye.orderedAngles_dist (e : Eye) (shapes : List Shape) (hd : 0 ≤ e.dist)
    (c : Point ℝ) (θ : ℝ) (h : (c, θ) ∈ e.orderedAngles shapes) :
    vecLen e.pos c ≤ e.dist := by
  rw [Eye.orderedAngles] at h
  try dsimp only at h
  rcases hfi : (e.sortedAngles shapes).findIdx?
      (fun x => decide ((e.ray x.2).pseudoAngle >
        (e.ray (e.angle - e.fov / 2)).pseudoAngle)) with _ | i <;>
    rw [hfi] at h <;> try dsimp only at h
  · rcases List.mem_cons.mp h with heq | h
    · rw [show c = (e.ray (e.angle - e.fov / 2)).endP from (Prod.ext_iff.mp heq).1]
      rw [vecLen_ray_endP e _ hd]
    · rcases List.mem_append.mp h with h | h
      · exact e.sortedAngles_dist shapes c θ h
      · rw [show c = (e.ray (e.angle + e.fov / 2)).endP from
          (Prod.ext_iff.mp (List.mem_singleton.mp h)).1]
        rw [vecLen_ray_endP e _ hd]
  · rcases List.mem_cons.mp h with heq | h
    · rw [show c = (e.ray (e.angle - e.fov / 2)).endP from (Prod.ext_iff.mp heq).1]
      rw [vecLen_ray_endP e _ hd]
    · rcases List.mem_append.mp h with h | h
      · rcases List.mem_append.mp h with h | h
        · exact e.sortedAngles_dist shapes c θ (List.mem_of_mem_drop h)
        · exact e.sortedAngles_dist shapes c θ (List.mem_of_mem_take h)
      · rw [show c = (e.ray (e.angle + e.fov / 2)).endP from
          (Prod.ext_iff.mp (List.mem_singleton.mp h)).1]
        rw [vecLen_ray_endP e _ hd]

theorem Eye.nearestIntersection_dist (e : Eye) (shapes : List Shape) (θ : ℝ)
    (hd : 0 ≤ e.dist) (q : Point ℝ) (h : e.nearestIntersection shapes θ = some q) :
    vecLen e.pos q ≤ e.dist := by
  rw [Eye.nearestIntersection] at h
  rcases hl : (shapes.filterMap (fun sh => sh.intersection (e.ray θ))).mergeSort
      (fun a b => decide (vecLen e.pos a ≤ vecLen e.pos b)) with _ | ⟨x, xs⟩ <;>
    rw [hl] at h
  · simp at h
  · simp only [List.head?_cons, Option.some.injEq] at h
    subst h
    have hx : x ∈ shapes.filterMap (fun sh => sh.intersection (e.ray θ)) :=
      List.mem_mergeSort.mp (by rw [hl]; exact List.mem_cons_self _ _)
    rcases List.mem_filterMap.mp hx with ⟨sh, _, hsh⟩
    have hle := Shape.intersection_dist_le sh (e.ray θ) x hsh
    have : (e.ray θ).start = e.pos := rfl
    rw [this] at hle
    calc vecLen e.pos x ≤ vecLen e.pos (e.ray θ).endP := hle
    _ = e.dist := vecLen_ray_endP e θ hd

theorem Eye.linesOf_good (e : Eye) (shapes : List Shape) (hd : 0 ≤ e.dist)
    (t : Point ℝ × ℝ × Option (Point ℝ)) (h : t ∈ e.linesOf shapes) :
    vecLen e.pos t.1 ≤ e.dist ∧ ∀ q, t.2.2 = some q → vecLen e.pos q ≤ e.dist := by
  rw [Eye.linesOf] at h
  rcases List.mem_map.mp h with ⟨ca, hca, rfl⟩
  refine ⟨e.orderedAngles_dist shapes hd ca.1 ca.2 (by simpa using hca), ?_⟩
  intro q hq
  exact e.nearestIntersection_dist shapes ca.2 hd q hq

end Stealth

namespace Stealth

open Real

/-- C8: for a non-negative max distance, every vertex emitted into the
visibility boundary by `castRays` (corner vertices, nearest-intersection
vertices, full-length ray endpoints) lies at distance at most `dist` from
the observer position, and every emitted arc is centred on the observer
with radius at most `dist` (so its points are at distance exactly
`dist`).  Exact arithmetic subsumes the numerical tolerance. -/
theorem Eye.castRaysPath_within (e : Eye) (shapes : List Shape) (hd : 0 ≤ e.dist) :
    ∀ cmd ∈ e.castRaysPath shapes, e.cmdWithin cmd := by
  intro cmd hcmd
  rw [Eye.castRaysPath] at hcmd
  try dsimp only at hcmd
  rcases List.mem_cons.mp hcmd with rfl | hcmd
  · show vecLen e.pos ⟨e.pos.x, (e.ray (e.angle - e.fov / 2)).start.y⟩ ≤ e.dist
    have : (⟨e.pos.x, (e.ray (e.angle - e.fov / 2)).start.y⟩ : Point ℝ) = e.pos := rfl
    rw [this, vecLen_self]
    exact hd
  rcases List.mem_append.mp hcmd with hcmd | hcmd
  · rcases List.mem_flatMap.mp hcmd with ⟨pr, hpr, hc⟩
    have h1 : pr.1 ∈ e.linesOf shapes := (List.of_mem_zip hpr).1
    have h2 : pr.2 ∈ e.linesOf shapes := List.mem_of_mem_tail (List.of_mem_zip hpr).2
    have g1 := e.linesOf_good shapes hd pr.1 h1
    have g2 := e.linesOf_good shapes hd pr.2 h2
    rw [Eye.pairCmds] at hc
    try dsimp only at hc
    rcases List.mem_append.mp hc with hc | hc
    · -- first emitted command
      rcases hi1 : pr.1.2.2 with _ | q <;> rw [hi1] at hc <;> try dsimp only at hc
      · -- i1 = none
        split_ifs at hc
        · rw [List.mem_singleton.mp hc]
          exact g1.1
        · rw [List.mem_singleton.mp hc]
          show vecLen e.pos (e.ray pr.1.2.1).endP ≤ e.dist
          rw [vecLen_ray_endP e _ hd]
      · -- i1 = some q
        split_ifs at hc
        · rw [List.mem_singleton.mp hc]
          exact g1.1
        · rw [List.mem_singleton.mp hc]
          exact g1.2 q hi1
    · -- second emitted command
      split_ifs at hc with harc
      · rw [List.mem_singleton.mp hc]
        exact ⟨rfl, le_refl _⟩
      · rcases hi2 : pr.2.2.2 with _ | q <;> rw [hi2] at hc <;> try dsimp only at hc
        · rw [List.mem_singleton.mp hc]
          exact g2.1
        · split_ifs at hc
          · rw [List.mem_singleton.mp hc]
            exact g2.1
          · rw [List.mem_singleton.mp hc]
            exact g2.2 q hi2
  · rw [List.mem_singleton.mp hcmd]
    show vecLen e.pos ⟨(e.ray (e.angle + e.fov / 2)).start.x,
      (e.ray (e.angle + e.fov / 2)).start.y⟩ ≤ e.dist
    have : (⟨(e.ray (e.angle + e.fov / 2)).start.x,
        (e.ray (e.angle + e.fov / 2)).start.y⟩ : Point ℝ) = e.pos := rfl
    rw [this, vecLen_self]
    exact hd

end Stealth

namespace Stealth

open Real

theorem neg_pi_lt_atan2 (y x : ℝ) : -π < atan2 y x := by
  have hpi := Real.pi_pos
  rcases lt_trichotomy x 0 with hx | hx | hx
  · rcases le_or_lt 0 y with hy | hy
    · rw [atan2_of_neg_nonneg hx hy]
      have := Real.neg_pi_div_two_lt_arctan (y / x)
      linarith
    · rw [atan2_of_neg_neg hx hy]
      have harc : 0 < Real.arctan (y / x) := by
        rw [← Real.arctan_zero]
        exact Real.arctan_strictMono (div_pos_of_neg_of_neg hy hx)
      linarith
  · subst hx
    rcases lt_trichotomy y 0 with hy | hy | hy
    · rw [atan2_zero_of_neg_y hy]
      linarith
    · subst hy
      rw [atan2, if_neg (lt_irrefl 0), if_neg (lt_irrefl 0), if_neg (lt_irrefl 0),
        if_neg (lt_irrefl 0)]
      linarith
    · rw [atan2_zero_of_pos_y hy]
      linarith
  · rw [atan2_of_pos hx]
    have := Real.neg_pi_div_two_lt_arctan (y / x)
    linarith

theorem atan2_div_div (y x L : ℝ) (hL : 0 < L) : atan2 (y / L) (x / L) = atan2 y x := by
  have hx1 : (0 < x / L) ↔ (0 < x) := by
    rw [lt_div_iff hL, zero_mul]
  have hx2 : (x / L < 0) ↔ (x < 0) := by
    rw [div_lt_iff hL, zero_mul]
  have hy1 : (0 ≤ y / L) ↔ (0 ≤ y) := by
    rw [le_div_iff hL, zero_mul]
  have hy2 : (0 < y / L) ↔ (0 < y) := by
    rw [lt_div_iff hL, zero_mul]
  have hy3 : (y / L < 0) ↔ (y < 0) := by
    rw [div_lt_iff hL, zero_mul]
  have hdiv : y / L / (x / L) = y / x := by
    rcases eq_or_ne x 0 with rfl | hx
    · rw [zero_div, div_zero, div_zero]
    · field_simp
  rw [atan2, atan2, hdiv]
  simp only [hx1, hx2, hy1, hy2, hy3]

theorem two_pi_int_zero (x : ℝ) (k : ℤ) (h1 : -π < x) (h2 : x ≤ π)
    (h3 : -π < x + 2 * π * k) (h4 : x + 2 * π * k ≤ π) : k = 0 := by
  have hpi := Real.pi_pos
  have hk1 : (-1 : ℝ) < k := by nlinarith
  have hk2 : (k : ℝ) < 1 := by nlinarith
  have ha : (-1 : ℤ) < k := by exact_mod_cast hk1
  have hb : k < (1 : ℤ) := by exact_mod_cast hk2
  omega

end Stealth

namespace Stealth

open Real

/-- The one-step normalization of `castRays` step 1 is equivalent, as a
window test, to testing the canonical representative in (-π, π] of the
angular difference, provided both angles lie in (-π, π]. -/
theorem normalizeStep_window (θ φ f : ℝ) (h1 : -π < θ) (h2 : θ ≤ π)
    (h3 : -π < φ) (h4 : φ ≤ π) :
    ((θ - φ + (if θ - φ > π then -(2 * π) else if θ - φ < -π then 2 * π else 0)) < f / 2 ∧
     (θ - φ + (if θ - φ > π then -(2 * π) else if θ - φ < -π then 2 * π else 0)) > -(f / 2)) ↔
    (∃ d : ℝ, (∃ k : ℤ, d = θ - φ + 2 * π * k) ∧ -π < d ∧ d ≤ π ∧
      -(f / 2) < d ∧ d < f / 2) := by
  have hpi := Real.pi_pos
  have hD1 : θ - φ > -(2 * π) := by linarith
  have hD2 : θ - φ < 2 * π := by linarith
  rcases lt_trichotomy (θ - φ) π with hA | hA | hA
  · rcases lt_trichotomy (θ - φ) (-π) with hB | hB | hB
    · -- θ - φ < -π : one step adds 2π, result in (0, π)
      rw [if_neg (by linarith), if_pos hB]
      constructor
      · rintro ⟨hw1, hw2⟩
        exact ⟨θ - φ + 2 * π, ⟨1, by push_cast; ring⟩, by linarith, by linarith,
          by linarith, by linarith⟩
      · rintro ⟨d, ⟨k, hk⟩, hd1, hd2, hw1, hw2⟩
        have hkval : k - 1 = 0 := by
          refine two_pi_int_zero (θ - φ + 2 * π) (k - 1) (by linarith) (by linarith) ?_ ?_
          · push_cast
            rw [show θ - φ + 2 * π + 2 * π * ((k : ℝ) - 1) = θ - φ + 2 * π * k by ring]
            rw [← hk]
            exact hd1
          · push_cast
            rw [show θ - φ + 2 * π + 2 * π * ((k : ℝ) - 1) = θ - φ + 2 * π * k by ring]
            rw [← hk]
            exact hd2
        have : d = θ - φ + 2 * π := by
          rw [hk]
          have : (k : ℝ) = 1 := by exact_mod_cast (by omega : k = 1)
          rw [this]
          ring
        constructor <;> linarith [this ▸ hw1, this ▸ hw2]
    · -- θ - φ = -π exactly : one step keeps -π, canonical is π
      rw [if_neg (by linarith), if_neg (by rw [hB]; exact lt_irrefl _), add_zero, hB]
      constructor
      · rintro ⟨hw1, hw2⟩
        have hf : 2 * π < f := by linarith
        exact ⟨π, ⟨1, by push_cast; ring⟩, by linarith, le_refl _,
          by linarith, by linarith⟩
      · rintro ⟨d, ⟨k, hk⟩, hd1, hd2, hw1, hw2⟩
        have hk1 : (0 : ℤ) < k := by
          by_contra hle
          push_neg at hle
          have : (k : ℝ) ≤ 0 := by exact_mod_cast hle
          have : d ≤ -π := by rw [hk]; nlinarith
          linarith
        have hk2 : k ≤ 1 := by
          by_contra hgt
          push_neg at hgt
          have : (2 : ℤ) ≤ k := by omega
          have : (2 : ℝ) ≤ (k : ℝ) := by exact_mod_cast this
          have : π < d := by rw [hk]; nlinarith
          linarith
        have hkeq : k = 1 := by omega
        have hd : d = π := by
          rw [hk, hkeq]
          push_cast
          ring
        rw [hd] at hw2
        constructor <;> linarith
    · -- -π < θ - φ ≤ π (and < π here via hA) : no step
      rw [if_neg (by linarith), if_neg (by linarith)]
      rw [add_zero]
      constructor
      · rintro ⟨hw1, hw2⟩
        exact ⟨θ - φ, ⟨0, by push_cast; ring⟩, hB, by linarith, by linarith, by linarith⟩
      · rintro ⟨d, ⟨k, hk⟩, hd1, hd2, hw1, hw2⟩
        have hkval : k = 0 := by
          refine two_pi_int_zero (θ - φ) k hB (by linarith) ?_ ?_
          · rw [← hk]; exact hd1
          · rw [← hk]; exact hd2
        have : d = θ - φ := by
          rw [hk, hkval]
          push_cast
          ring
        constructor <;> linarith [this ▸ hw1, this ▸ hw2]
  · -- θ - φ = π : no step, canonical is π itself
    rw [if_neg (by linarith), if_neg (by linarith), add_zero]
    constructor
    · rintro ⟨hw1, hw2⟩
      exact ⟨θ - φ, ⟨0, by push_cast; ring⟩, by linarith, by linarith, by linarith,
        by linarith⟩
    · rintro ⟨d, ⟨k, hk⟩, hd1, hd2, hw1, hw2⟩
      have hkval : k = 0 := by
        refine two_pi_int_zero (θ - φ) k (by linarith) (by linarith) ?_ ?_
        · rw [← hk]; exact hd1
        · rw [← hk]; exact hd2
      have : d = θ - φ := by
        rw [hk, hkval]
        push_cast
        ring
      constructor <;> linarith [this ▸ hw1, this ▸ hw2]
  · -- θ - φ > π : one step subtracts 2π, result in (-π, 0)
    rw [if_pos hA]
    constructor
    · rintro ⟨hw1, hw2⟩
      exact ⟨θ - φ + -(2 * π), ⟨-1, by push_cast; ring⟩, by linarith, by linarith,
        by linarith, by linarith⟩
    · rintro ⟨d, ⟨k, hk⟩, hd1, hd2, hw1, hw2⟩
      have hkval : k + 1 = 0 := by
        refine two_pi_int_zero (θ - φ + -(2 * π)) (k + 1) (by linarith) (by linarith) ?_ ?_
        · push_cast
          rw [show θ - φ + -(2 * π) + 2 * π * ((k : ℝ) + 1) = θ - φ + 2 * π * k by ring]
          rw [← hk]
          exact hd1
        · push_cast
          rw [show θ - φ + -(2 * π) + 2 * π * ((k : ℝ) + 1) = θ - φ + 2 * π * k by ring]
          rw [← hk]
          exact hd2
      have : d = θ - φ + -(2 * π) := by
        rw [hk]
        have : (k : ℝ) = -1 := by exact_mod_cast (by omega : k = -1)
        rw [this]
        ring
      constructor <;> linarith [this ▸ hw1, this ▸ hw2]

end Stealth

namespace Stealth

open Real

theorem Eye.cornerLen_eq_vecLen (e : Eye) (c : Point ℝ) :
    e.cornerLen c = vecLen e.pos c := rfl

theorem Eye.cornerAngle_eq (e : Eye) (c : Point ℝ) (h : e.cornerLen c ≠ 0) :
    e.cornerAngle c = atan2 (c.y - e.pos.y) (c.x - e.pos.x) := by
  have hL : 0 < e.cornerLen c := lt_of_le_of_ne (Real.sqrt_nonneg _) (Ne.symm h)
  rw [Eye.cornerAngle]
  exact atan2_div_div _ _ _ hL

theorem Eye.cornerDiff_window_iff (e : Eye) (c : Point ℝ) (hne : e.cornerLen c ≠ 0)
    (ha1 : -π < e.angle) (ha2 : e.angle ≤ π) :
    (e.cornerDiff c < e.fov / 2 ∧ e.cornerDiff c > -(e.fov / 2)) ↔
    (∃ d : ℝ, (∃ k : ℤ, d = atan2 (c.y - e.pos.y) (c.x - e.pos.x) - e.angle + 2 * π * k) ∧
      -π < d ∧ d ≤ π ∧ -(e.fov / 2) < d ∧ d < e.fov / 2) := by
  rw [Eye.cornerDiff, e.cornerAngle_eq c hne]
  exact normalizeStep_window _ e.angle e.fov (neg_pi_lt_atan2 _ _) (atan2_le_pi _ _) ha1 ha2

/-- C3: given the program invariant that the facing angle lies in
(-pi, pi] (it is 0 initially and otherwise set by `lookAt` to an `atan2`
value), a (corner, angle) pair is kept in `potentialAngles` if and only
if the corner is visible from the observer position for some shape, its
distance is neither 0 nor greater than the max distance, its angle is
`atan2` of the offset from the observer, and the signed angular
difference to the facing, normalized to (-pi, pi], lies strictly within
(-fov/2, fov/2). -/
theorem Eye.potentialAngles_mem_iff (e : Eye) (shapes : List Shape)
    (ha1 : -π < e.angle) (ha2 : e.angle ≤ π) (c : Point ℝ) (θ : ℝ) :
    ((c, θ) ∈ e.potentialAngles shapes ↔
      ((∃ sh ∈ shapes, c ∈ sh.cornersForPoint e.pos) ∧
       θ = atan2 (c.y - e.pos.y) (c.x - e.pos.x) ∧
       vecLen e.pos c ≠ 0 ∧ vecLen e.pos c ≤ e.dist ∧
       (∃ d : ℝ, (∃ k : ℤ, d = atan2 (c.y - e.pos.y) (c.x - e.pos.x) - e.angle + 2 * π * k) ∧
         -π < d ∧ d ≤ π ∧ -(e.fov / 2) < d ∧ d < e.fov / 2))) := by
  constructor
  · intro h
    rw [Eye.potentialAngles] at h
    rcases List.mem_flatMap.mp h with ⟨sh, hsh, hmem⟩
    rcases List.mem_filterMap.mp hmem with ⟨corner, hcmem, hf⟩
    obtain ⟨heq, hθ, hne, hle, hw1, hw2⟩ := (e.cornerKeep_some corner c θ).mp hf
    subst heq
    refine ⟨⟨sh, hsh, hcmem⟩, ?_, ?_, ?_, ?_⟩
    · rw [hθ, e.cornerAngle_eq c hne]
    · rw [← e.cornerLen_eq_vecLen]
      exact hne
    · rw [← e.cornerLen_eq_vecLen]
      exact hle
    · exact (e.cornerDiff_window_iff c hne ha1 ha2).mp ⟨hw1, hw2⟩
  · rintro ⟨⟨sh, hsh, hcmem⟩, hθ, hne, hle, hwin⟩
    rw [Eye.potentialAngles]
    have hne' : e.cornerLen c ≠ 0 := by
      rw [Eye.cornerLen_eq_vecLen]
      exact hne
    have hw := (e.cornerDiff_window_iff c hne' ha1 ha2).mpr hwin
    refine List.mem_flatMap.mpr ⟨sh, hsh, List.mem_filterMap.mpr ⟨c, hcmem, ?_⟩⟩
    refine (e.cornerKeep_some c c θ).mpr ⟨rfl, ?_, hne', ?_, hw.1, hw.2⟩
    · rw [hθ, e.cornerAngle_eq c hne']
    · rw [Eye.cornerLen_eq_vecLen]
      exact hle

end Stealth

namespace Stealth

open Real

theorem Eye.lookAt_updates (e : Eye) (p : Point ℝ) (h : p ≠ e.pos) :
    (e.lookAt p).rays = none ∧ (e.lookAt p).path = e.path := by
  rcases hu : unitVector e.pos p with _ | v
  · exfalso
    rw [unitVector] at hu
    try dsimp only at hu
    split_ifs at hu with h0
    · have hsum : (p.x - e.pos.x) ^ 2 + (p.y - e.pos.y) ^ 2 = 0 := by
        have hle := Real.sqrt_eq_zero'.mp h0
        have hnn : 0 ≤ (p.x - e.pos.x) ^ 2 + (p.y - e.pos.y) ^ 2 := by positivity
        linarith
      have hx : p.x - e.pos.x = 0 := by
        nlinarith [sq_nonneg (p.x - e.pos.x), sq_nonneg (p.y - e.pos.y)]
      have hy : p.y - e.pos.y = 0 := by
        nlinarith [sq_nonneg (p.x - e.pos.x), sq_nonneg (p.y - e.pos.y)]
      exact h (Point.eq_of_sub hx hy)
  · rw [Eye.lookAt, hu]
    exact ⟨rfl, rfl⟩

/-- C2 (amended): the `origin` setter assigns the position and leaves
both cached fields untouched (callers invalidate externally); `lookAt`
with a target distinct from the position invalidates only `rays` and
leaves `path` unchanged; `draw` recomputes both `rays` and `path` via
`castRays` exactly when `rays` is stale, which restores consistency of
both caches on the next read. -/
theorem Eye.mutator_invalidation (e : Eye) (p : Point ℝ) (shapes : List Shape) :
    ((e.setOrigin p).rays = e.rays ∧ (e.setOrigin p).path = e.path ∧
      (e.setOrigin p).pos = p) ∧
    (p ≠ e.pos → (e.lookAt p).rays = none ∧ (e.lookAt p).path = e.path) ∧
    (e.rays = none →
      (e.drawUpd shapes).rays = some (e.castRaysRays shapes) ∧
      (e.drawUpd shapes).path = some (e.castRaysPath shapes)) := by
  refine ⟨⟨rfl, rfl, rfl⟩, Eye.lookAt_updates e p, ?_⟩
  intro h
  rw [Eye.drawUpd, if_pos h]
  exact ⟨rfl, rfl⟩

/-- C2 counterexample: on a concrete eye with fresh caches, the `origin`
setter leaves both `rays` and `path` non-stale, and `lookAt` leaves
`path` non-stale — the claimed invalidation of both cached fields by
every pose mutator does not happen. -/
theorem Eye.setOrigin_no_invalidation :
    ((Eye.setOrigin ⟨⟨0, 0⟩, 0, π / 2, 200, some [], some []⟩ ⟨1, 2⟩).rays ≠ none) ∧
    ((Eye.setOrigin ⟨⟨0, 0⟩, 0, π / 2, 200, some [], some []⟩ ⟨1, 2⟩).path ≠ none) ∧
    ((Eye.lookAt ⟨⟨0, 0⟩, 0, π / 2, 200, some [], some []⟩ ⟨1, 0⟩).path ≠ none) := by
  refine ⟨by simp [Eye.setOrigin], by simp [Eye.setOrigin], ?_⟩
  have h := Eye.lookAt_updates ⟨⟨0, 0⟩, 0, π / 2, 200, some [], some []⟩ ⟨1, 0⟩
    (by norm_num [Point.mk.injEq])
  rw [h.2]
  simp

/-- C2 witness: the amended statement applied to a concrete eye and a
target distinct from its position. -/
theorem Eye.mutator_invalidation_witness :
    ((⟨1, 0⟩ : Point ℝ) ≠ (⟨0, 0⟩ : Point ℝ)) ∧
    (Eye.lookAt ⟨⟨0, 0⟩, 0, π / 2, 200, some [], some []⟩ ⟨1, 0⟩).rays = none := by
  have hne : (⟨1, 0⟩ : Point ℝ) ≠ ⟨0, 0⟩ := by norm_num [Point.mk.injEq]
  exact ⟨hne,
    ((Eye.mutator_invalidation ⟨⟨0, 0⟩, 0, π / 2, 200, some [], some []⟩ ⟨1, 0⟩ []).2.1
      hne).1⟩

/-- C9: `Polygon.intersection` returns `none` exactly when no edge
crossing survives the endpoint-epsilon exclusion, and any returned point
is a surviving crossing of an edge that is nearest to the ray start among
all surviving crossings. -/
theorem Polygon.intersection_nearest (poly : Polygon) (line : LineSegment ℝ) :
    (Polygon.intersection poly line = none ↔
      poly.intersectionCandidates line = []) ∧
    (∀ q, Polygon.intersection poly line = some q →
      (∃ ab ∈ poly.linesList, LineSegment.intersection line ⟨ab.1, ab.2⟩ = some q ∧
        ¬ approxEqual q ab.1 ∧ ¬ approxEqual q ab.2) ∧
      ∀ q' ∈ poly.intersectionCandidates line,
        vecLen line.start q ≤ vecLen line.start q') := by
  have hperm := List.mergeSort_perm (poly.intersectionCandidates line)
    (fun q1 q2 => decide (vecLen line.start q1 ≤ vecLen line.start q2))
  constructor
  · rw [Polygon.intersection, List.head?_eq_none_iff]
    constructor
    · intro h
      rw [h] at hperm
      exact hperm.symm.eq_nil
    · intro h
      rw [h]
      exact List.mergeSort_nil
  · intro q hq
    have hmem := Polygon.intersection_mem_candidates poly line q hq
    refine ⟨Polygon.candidates_crossing poly line q hmem, ?_⟩
    intro q' hq'
    rw [Polygon.intersection] at hq
    rcases hl : (poly.intersectionCandidates line).mergeSort
        (fun q1 q2 => decide (vecLen line.start q1 ≤ vecLen line.start q2)) with _ | ⟨x, xs⟩ <;>
      rw [hl] at hq
    · exact absurd hq (by simp)
    · simp only [List.head?_cons, Option.some.injEq] at hq
      subst hq
      have hsorted := @List.sorted_mergeSort _
        (fun q1 q2 => decide (vecLen line.start q1 ≤ vecLen line.start q2))
        (fun a b c hab hbc => by
          simp only [decide_eq_true_eq] at hab hbc ⊢
          exact le_trans hab hbc)
        (fun a b => by
          simp only [Bool.or_eq_true, decide_eq_true_eq]
          exact le_total _ _)
        (poly.intersectionCandidates line)
      rw [hl] at hsorted
      have hq'sorted : q' ∈ x :: xs := by
        rw [← hl]
        exact List.mem_mergeSort.mpr hq'
      rcases List.mem_cons.mp hq'sorted with rfl | htl
      · exact le_refl _
      · have := (List.pairwise_cons.mp hsorted).1 q' htl
        simpa using this

end Stealth

namespace Stealth

open Real

/-- C7: with an empty obstacle list, the boundary path produced by
`castRays` is exactly the fov wedge: a move to the observer position, a
straight edge to the endpoint of the start-boundary ray at angle
`facing - fov/2` and length `dist`, an arc centred on the observer with
radius `dist` from `facing - fov/2` to `facing + fov/2`, and a straight
edge back to the observer position. -/
theorem Eye.castRays_open_sky (e : Eye) :
    e.castRaysPath [] =
      [PathCmd.moveTo e.pos,
       PathCmd.lineTo ⟨e.pos.x + e.dist * Real.cos (e.angle - e.fov / 2),
                       e.pos.y + e.dist * Real.sin (e.angle - e.fov / 2)⟩,
       PathCmd.arc e.pos e.dist (e.angle - e.fov / 2) (e.angle + e.fov / 2),
       PathCmd.lineTo e.pos] :=
  Eye.castRaysPath_nil e

/-- C8 witness: the max-distance bound evaluated on the open-sky path of
a concrete observer. -/
theorem Eye.castRaysPath_within_witness :
    (0 : ℝ) ≤ 200 ∧
    Eye.cmdWithin ⟨⟨0, 0⟩, 0, π / 2, 200, none, none⟩ (PathCmd.moveTo ⟨0, 0⟩) :=
  ⟨by norm_num,
    Eye.castRaysPath_within ⟨⟨0, 0⟩, 0, π / 2, 200, none, none⟩ [] (by norm_num)
      (PathCmd.moveTo ⟨0, 0⟩)
      (by rw [Eye.castRaysPath_nil]; exact List.mem_cons_self _ _)⟩

/-- C3 witness: a concrete box corner at distance 3, angle 0, inside the
fov window of a concrete observer. -/
theorem Eye.potentialAngles_mem_iff_witness :
    (-π < (0 : ℝ)) ∧ ((0 : ℝ) ≤ π) ∧
    ((⟨3, 0⟩, (0 : ℝ)) ∈
      Eye.potentialAngles ⟨⟨0, 0⟩, 0, π / 2, 200, none, none⟩
        [Shape.box ⟨⟨3, 0, 2, 2⟩⟩]) := by
  have hpi := Real.pi_pos
  have ha1 : -π < (0 : ℝ) := by linarith
  have ha2 : (0 : ℝ) ≤ π := by linarith
  refine ⟨ha1, ha2, ?_⟩
  have hcorner : Shape.cornersForPoint (Shape.box ⟨⟨3, 0, 2, 2⟩⟩) ⟨0, 0⟩ =
      [⟨3, 0⟩, ⟨3, 2⟩] := by
    show Box.cornersForPoint (⟨⟨3, 0, 2, 2⟩⟩ : Box ℝ) ⟨0, 0⟩ = [⟨3, 0⟩, ⟨3, 2⟩]
    rw [Box.cornersForPoint, Box.cornerTags,
      if_neg (show ¬ ((0 : ℝ) < Box.top ⟨⟨3, 0, 2, 2⟩⟩) by norm_num [Box.top]),
      if_neg (show ¬ ((0 : ℝ) > Box.bottom ⟨⟨3, 0, 2, 2⟩⟩) by norm_num [Box.bottom]),
      Box.cornerTagsX_of_left _ _ (show (0 : ℝ) < Box.left ⟨⟨3, 0, 2, 2⟩⟩ by
        norm_num [Box.left])]
    simp [Box.cornerPoint, Box.left, Box.top, Box.bottom, Point.mk.injEq]
  have hlen : vecLen (⟨0, 0⟩ : Point ℝ) ⟨3, 0⟩ = 3 := by
    rw [vecLen]
    norm_num
    rw [show (9 : ℝ) = 3 ^ 2 by norm_num, Real.sqrt_sq (by norm_num)]
  refine (Eye.potentialAngles_mem_iff ⟨⟨0, 0⟩, 0, π / 2, 200, none, none⟩
    [Shape.box ⟨⟨3, 0, 2, 2⟩⟩] ha1 ha2 ⟨3, 0⟩ 0).mpr ⟨?_, ?_, ?_, ?_, ?_⟩
  · exact ⟨Shape.box ⟨⟨3, 0, 2, 2⟩⟩, List.mem_cons_self _ _, by
      rw [hcorner]; exact List.mem_cons_self _ _⟩
  · show (0 : ℝ) = atan2 ((0 : ℝ) - 0) ((3 : ℝ) - 0)
    rw [show ((0 : ℝ) - 0) = 0 by norm_num, show ((3 : ℝ) - 0) = 3 by norm_num,
      atan2_axis_pos (by norm_num)]
  · show vecLen (⟨0, 0⟩ : Point ℝ) ⟨3, 0⟩ ≠ 0
    rw [hlen]
    norm_num
  · show vecLen (⟨0, 0⟩ : Point ℝ) ⟨3, 0⟩ ≤ 200
    rw [hlen]
    norm_num
  · refine ⟨0, ⟨0, ?_⟩, by linarith, by linarith, by linarith, by linarith⟩
    rw [show ((0 : ℝ) - 0) = 0 by norm_num, show ((3 : ℝ) - 0) = 3 by norm_num,
      atan2_axis_pos (by norm_num)]
    push_cast
    ring

end Stealth

namespace Stealth

open Real

theorem polyW_lines : polyW.linesList =
    [(⟨0, 0⟩, ⟨0, 4⟩), (⟨4, 0⟩, ⟨0, 0⟩), (⟨0, 4⟩, ⟨4, 0⟩)] := rfl

theorem lineW_edgeA :
    LineSegment.intersection lineW ⟨⟨0, 0⟩, ⟨0, 4⟩⟩ = some ⟨0, 2⟩ := by
  rw [LineSegment.intersection]
  rw [if_neg (by norm_num [lineW, Point.mk.injEq])]
  rw [if_neg (by norm_num [lineW, LineSegment.denominator])]
  rw [if_neg (by norm_num [lineW, LineSegment.ua, LineSegment.ub, LineSegment.denominator])]
  norm_num [lineW, LineSegment.ua, LineSegment.denominator, Point.mk.injEq]

theorem lineW_edgeB :
    LineSegment.intersection lineW ⟨⟨4, 0⟩, ⟨0, 0⟩⟩ = none := by
  rw [LineSegment.intersection]
  rw [if_neg (by norm_num [lineW, Point.mk.injEq])]
  rw [if_pos (by norm_num [lineW, LineSegment.denominator])]

theorem lineW_edgeC :
    LineSegment.intersection lineW ⟨⟨0, 4⟩, ⟨4, 0⟩⟩ = none := by
  rw [LineSegment.intersection]
  rw [if_neg (by norm_num [lineW, Point.mk.injEq])]
  rw [if_neg (by norm_num [lineW, LineSegment.denominator])]
  rw [if_pos]
  right
  left
  norm_num [lineW, LineSegment.ua, LineSegment.denominator]

theorem polyW_candidates :
    polyW.intersectionCandidates lineW = [⟨0, 2⟩] := by
  rw [Polygon.intersectionCandidates, polyW_lines]
  simp only [List.filterMap_cons, List.filterMap_nil]
  rw [lineW_edgeA, lineW_edgeB, lineW_edgeC]
  simp only []
  rw [if_pos]
  constructor
  · intro hap
    have := hap.2.2
    norm_num [approxEqual] at this
  · intro hap
    have := hap.2.1
    norm_num [approxEqual] at this

end Stealth

namespace Stealth

open Real

theorem polyW_intersection :
    Polygon.intersection polyW lineW = some ⟨0, 2⟩ := by
  rw [Polygon.intersection, polyW_candidates, List.mergeSort_singleton, List.head?_cons]

/-- C9 witness: a concrete triangle and ray with a single valid crossing. -/
theorem Polygon.intersection_nearest_witness :
    Polygon.intersection polyW lineW = some ⟨0, 2⟩ ∧
    (∃ ab ∈ polyW.linesList,
      LineSegment.intersection lineW ⟨ab.1, ab.2⟩ = some ⟨0, 2⟩ ∧
      ¬ approxEqual ⟨0, 2⟩ ab.1 ∧ ¬ approxEqual ⟨0, 2⟩ ab.2) ∧
    (∀ q' ∈ polyW.intersectionCandidates lineW,
      vecLen lineW.start ⟨0, 2⟩ ≤ vecLen lineW.start q') :=
  ⟨polyW_intersection,
    ((Polygon.intersection_nearest polyW lineW).2 ⟨0, 2⟩ polyW_intersection).1,
    ((Polygon.intersection_nearest polyW lineW).2 ⟨0, 2⟩ polyW_intersection).2⟩

end Stealth
